import Mathlib

/-!
Shallow embedding of the VDrift JOE03 binary model loader
(`model_joe03.cpp`): header validation, per-frame decoding, the
normal-swap defect heuristic, the vertex welder and the final
attribute gather.

Conventions of the embedding:
* C `float` arithmetic is idealised as exact rational arithmetic (`ℚ`);
  `int` / `short` values are carried as `Int`.
* The input is the decoded record stream in host byte order (the endian
  correction applied immediately after each read is a bijection on the
  stored bytes, so the loader is modelled on the corrected values).
* A failed `assert` (the `bytesread == count` check in `BinaryRead`,
  the index asserts in `NeedsNormalSwap`, the `tex_index >= 0` asserts
  in the welder) and an out-of-bounds `std::vector` access abort the
  process; both are modelled as `Option.none`, kept distinct from the
  loader library error paths (`return false`).
-/

namespace ModelJoe03

/-- Source constant `const int ModelJoe03::JOE_MAX_FACES = 32000`. -/
def JOE_MAX_FACES : Int := 32000

/-- Source constant `const int ModelJoe03::JOE_VERSION = 3`. -/
def JOE_VERSION : Int := 3

/-- Source constant `const float ModelJoe03::MODEL_SCALE = 1.0`. -/
def MODEL_SCALE : ℚ := 1

/-- A 3-component vector (`float vertex[3]` / `Vec3`), idealised over `ℚ`. -/
abbrev Vec3 := ℚ × ℚ × ℚ

/-- Modelled from the spec: componentwise vector sum (`Vec3::operator+`
of `mathvector.h`, which is not part of the sources). -/
def vadd (a b : Vec3) : Vec3 := (a.1 + b.1, a.2.1 + b.2.1, a.2.2 + b.2.2)

/-- Modelled from the spec: componentwise vector difference
(`Vec3::operator-` of `mathvector.h`). -/
def vsub (a b : Vec3) : Vec3 := (a.1 - b.1, a.2.1 - b.2.1, a.2.2 - b.2.2)

/-- Modelled from the spec: scalar multiple (`Vec3::operator*` of
`mathvector.h`). -/
def vscale (s : ℚ) (a : Vec3) : Vec3 := (s * a.1, s * a.2.1, s * a.2.2)

/-- Modelled from the spec: euclidean dot product (`Vec3::dot` of
`mathvector.h`). -/
def vdot (a b : Vec3) : ℚ := a.1 * b.1 + a.2.1 * b.2.1 + a.2.2 * b.2.2

/-- Modelled from the spec: right-handed cross product (`Vec3::cross`
of `mathvector.h`). -/
def vcross (a b : Vec3) : Vec3 :=
  (a.2.1 * b.2.2 - a.2.2 * b.2.1, a.2.2 * b.1 - a.1 * b.2.2, a.1 * b.2.1 - a.2.1 * b.1)

/-- Squared euclidean magnitude; `Vec3::Magnitude()` is its square root.
All magnitude comparisons of the source are encoded on squares, which is
equivalent for nonnegative thresholds (proved in `magR_gt_iff`). -/
def magSq (a : Vec3) : ℚ := vdot a a

/-- The zero vector (`Vec3 norm;` default construction). -/
def vzero : Vec3 := (0, 0, 0)

/-- Layout of `struct JoeFace`: three vertex indices, three normal indices, three
texcoord indices, each a 16-bit value (carried as `Int`). -/
structure JoeFace where
  vertexIndex : Int × Int × Int
  normalIndex : Int × Int × Int
  textureIndex : Int × Int × Int
deriving DecidableEq, Repr

/-- Component access for an index triple (`idx[v]` for `v = 0, 1, 2`). -/
def tget (t : Int × Int × Int) (v : Nat) : Int :=
  match v with
  | 0 => t.1
  | 1 => t.2.1
  | _ => t.2.2

/-- Layout of `struct JoeFrame`: per-frame counts and attribute arrays, laid out in
read order (`faces`, then the three counts, then the three arrays). -/
structure JoeFrame where
  num_verts : Int
  num_texcoords : Int
  num_normals : Int
  faces : List JoeFace
  verts : List Vec3
  normals : List Vec3
  texcoords : List (ℚ × ℚ)
deriving DecidableEq

/-- The decoded input stream: the `JoeHeader` fields followed by the
frame records available in the stream.  `frames` holds what the stream
can deliver; reading fails (short read) if it holds fewer than
`num_frames` records or the arrays of a record do not match its counts. -/
structure JoeInput where
  magic : Int
  version : Int
  num_faces : Int
  num_frames : Int
  frames : List JoeFrame
deriving DecidableEq

/-- Layout of `struct VertEntry`, the table slot of the welder. -/
structure VertEntry where
  original_index : Int
  norm_index : Int
  tex_index : Int
deriving DecidableEq, Repr

/-- The `VertEntry()` default constructor: all fields `-1` (empty). -/
def VertEntry.empty : VertEntry := ⟨-1, -1, -1⟩

/-- The welded mesh handed to `m_mesh` (`SetFaces`, `SetVertices`,
`SetNormals`, `SetTexCoordSets`, `SetTexCoords`). -/
structure WeldedMesh where
  faces : List Int
  vertices : List ℚ
  normals : List ℚ
  texcoordsets : Nat
  texcoords : List ℚ
deriving DecidableEq

/-- The error reports the loader writes before `return false`:
`versionMismatch` carries the found and the expected version,
`faceCountExceeded` the found count and the maximum. -/
inductive LoadError where
  | versionMismatch (found expected : Int)
  | faceCountExceeded (found max : Int)
deriving DecidableEq, Repr

/-- Outcome of `LoadFromHandle`: success with the welded mesh, a
reported error (`return false`), or a process abort (failed `assert` /
out-of-bounds vector access). -/
inductive LoadResult where
  | ok (mesh : WeldedMesh)
  | err (e : LoadError)
  | crash
deriving DecidableEq

/-- Checked list access: `std::vector::operator[]` with an `Int` index;
any access outside `[0, length)` is undefined behaviour, modelled as
`none`. -/
def intGet {α : Type} (l : List α) (i : Int) : Option α :=
  if h : 0 ≤ i ∧ i.toNat < l.length then some (l.get ⟨i.toNat, h.2⟩) else none

/-- The reads of one frame succeed exactly when the stream record matches the
requested counts: `resize` needs nonnegative counts and every
`BinaryRead` must return the requested element count. -/
def frameOk (nf : Int) (fr : JoeFrame) : Prop :=
  0 ≤ nf ∧ fr.faces.length = nf.toNat ∧
  0 ≤ fr.num_verts ∧ fr.verts.length = fr.num_verts.toNat ∧
  0 ≤ fr.num_normals ∧ fr.normals.length = fr.num_normals.toNat ∧
  0 ≤ fr.num_texcoords ∧ fr.texcoords.length = fr.num_texcoords.toNat

instance (nf : Int) (fr : JoeFrame) : Decidable (frameOk nf fr) := by
  unfold frameOk; infer_instance

/-- The read loop of `ReadData` (lines 276-302): `frames.resize
(num_frames)` followed by one full frame read per index.  Fails if
`num_frames` is negative, the stream is short, or any frame record
fails `frameOk`. -/
def readFrames (nf nfr : Int) (avail : List JoeFrame) : Option (List JoeFrame) :=
  if 0 ≤ nfr ∧ nfr.toNat ≤ avail.length then
    (avail.take nfr.toNat).mapM (fun fr => if frameOk nf fr then some fr else none)
  else none

/-- Apply `g` to the first `bound` elements (counting from `i`) of a
list, leaving the rest unchanged: the shape of the `for (v = 0; v <
count; v++)` in-place update loops. -/
def guardMap (g : Vec3 → Vec3) (bound : Int) : Int → List Vec3 → List Vec3
  | _, [] => []
  | i, v :: rest => (if i < bound then g v else v) :: guardMap g bound (i + 1) rest

/-- The scaling loop (lines 307-319): every vertex position of every
frame is multiplied by `MODEL_SCALE`. -/
def scaleFrame (fr : JoeFrame) : JoeFrame :=
  ⟨fr.num_verts, fr.num_texcoords, fr.num_normals, fr.faces,
    guardMap (vscale MODEL_SCALE) fr.num_verts 0 fr.verts, fr.normals, fr.texcoords⟩

/-- Fetch a triangle-corner vertex position in `NeedsNormalSwap`: the
`assert(... < num_verts)` followed by the `verts[...]` access. -/
def getVert (fr : JoeFrame) (i : Int) : Option Vec3 :=
  if i < fr.num_verts then intGet fr.verts i else none

/-- Fetch a triangle-corner normal in `NeedsNormalSwap`: the
`assert(... < num_normals)` followed by the `normals[...]` access. -/
def getNorm (fr : JoeFrame) (i : Int) : Option Vec3 :=
  if i < fr.num_normals then intGet fr.normals i else none

/-- The per-face data gathered by `NeedsNormalSwap`: the summed vertex
normal `norm = ((0 + n0) + n1) + n2` and the geometric face normal
`tnorm = (tri[2] - tri[0]).cross(tri[1] - tri[0])`. -/
def faceVectors (fr : JoeFrame) (f : JoeFace) : Option (Vec3 × Vec3) := do
  let v0 ← getVert fr (tget f.vertexIndex 0)
  let v1 ← getVert fr (tget f.vertexIndex 1)
  let v2 ← getVert fr (tget f.vertexIndex 2)
  let n0 ← getNorm fr (tget f.normalIndex 0)
  let n1 ← getNorm fr (tget f.normalIndex 1)
  let n2 ← getNorm fr (tget f.normalIndex 2)
  some (vadd (vadd (vadd vzero n0) n1) n2, vcross (vsub v2 v0) (vsub v1 v0))

/-- The flip-vote test of one face (lines 158-172).  The source compares
`Magnitude() > 0.0001` and, after normalising both vectors, `dot < 0.5
&& dot > -0.5`; on squares these are `magSq > (1/10000)^2` and
`4 * dot^2 < magSq * magSq` (equivalence with the square-root form is
proved in the lemmas for claim C4). -/
def faceVote (fr : JoeFrame) (f : JoeFace) : Option Bool := do
  let p ← faceVectors fr f
  some (decide ((1 / 10000 : ℚ) ^ 2 < magSq p.2 ∧ (1 / 10000 : ℚ) ^ 2 < magSq p.1 ∧
    4 * vdot p.1 p.2 ^ 2 < magSq p.1 * magSq p.2))

/-- Composite per-index vote: `faces[i]` access followed by the vote. -/
def voteAt (fr : JoeFrame) (i : Nat) : Option Bool :=
  (intGet fr.faces (i : Int)).bind (faceVote fr)

/-- The inner loop of `NeedsNormalSwap`: count votes over face indices. -/
def voteLoop (fr : JoeFrame) : List Nat → Nat → Option Nat
  | [], acc => some acc
  | i :: rest, acc => do
    let v ← voteAt fr i
    voteLoop fr rest (if v then acc + 1 else acc)

/-- Computation of `normal_flip_count` for one frame: votes over `i < num_faces`. -/
def frameVoteCount (nf : Int) (fr : JoeFrame) : Option Nat :=
  voteLoop fr (List.range nf.toNat) 0

/-- The outer loop of `NeedsNormalSwap`: `need_normal_flip` is set as
soon as the count of one frame satisfies `normal_flip_count > num_faces/4`
(truncating C integer division). -/
def swapLoop (nf : Int) : List JoeFrame → Bool → Option Bool
  | [], acc => some acc
  | fr :: rest, acc => do
    let c ← frameVoteCount nf fr
    swapLoop nf rest (acc || decide (nf.tdiv 4 < (c : Int)))

/-- The heuristic `NeedsNormalSwap` (lines 141-179). -/
def needsNormalSwap (nf : Int) (frames : List JoeFrame) : Option Bool :=
  swapLoop nf frames false

/-- The per-normal correction (lines 327-329): swap the Y and Z
components, then negate the new Y component: `(x, y, z) ↦ (x, -z, y)`. -/
def normalFixOne (n : Vec3) : Vec3 := (n.1, -n.2.2, n.2.1)

/-- The correction loop over one frame (`for v < num_normals`). -/
def fixFrame (fr : JoeFrame) : JoeFrame :=
  ⟨fr.num_verts, fr.num_texcoords, fr.num_normals, fr.faces, fr.verts,
    guardMap normalFixOne fr.num_normals 0 fr.normals, fr.texcoords⟩

/-- Lines 321-333: run the heuristic and, if it fires, correct every
normal of every frame. -/
def applyNormalFix (nf : Int) (frames : List JoeFrame) : Option (List JoeFrame) := do
  let b ← needsNormalSwap nf frames
  some (if b then frames.map fixFrame else frames)

/-- One corner of one face: the `(vertexIndex[v], normalIndex[v],
textureIndex[v])` triple the welder consumes. -/
structure Corner where
  vi : Int
  ni : Int
  ti : Int
deriving DecidableEq, Repr

/-- The three corners of a face, in loop order `v = 0, 1, 2`. -/
def faceCorners (f : JoeFace) : List Corner :=
  [⟨tget f.vertexIndex 0, tget f.normalIndex 0, tget f.textureIndex 0⟩,
   ⟨tget f.vertexIndex 1, tget f.normalIndex 1, tget f.textureIndex 1⟩,
   ⟨tget f.vertexIndex 2, tget f.normalIndex 2, tget f.textureIndex 2⟩]

/-- Corners of a face list in welder iteration order (`i` outer, `v`
inner). -/
def cornersList : List JoeFace → List Corner
  | [] => []
  | f :: rest => faceCorners f ++ cornersList rest

/-- One iteration of the welder loop body (lines 385-426) on the state
`(vert_master, v_faces-so-far)`.  The output index written at position
`i*3+v` is appended to the second component; positions are written in
strictly increasing order in the source, so the preallocated array is
modelled by appending.  A new entry is pushed back with all three
fields assigned immediately, so the push is modelled as appending the
full entry; `vert_master.size()-1` after the push equals the length
before it. -/
def weldCorner (st : List VertEntry × List Int) (c : Corner) :
    Option (List VertEntry × List Int) := do
  let ve ← intGet st.1 c.vi
  if ve.original_index = -1 then
    if c.ti < 0 then none
    else some (st.1.set c.vi.toNat ⟨c.vi, c.ni, c.ti⟩, st.2 ++ [c.vi])
  else if ve.norm_index = c.ni ∧ ve.tex_index = c.ti then
    if ve.tex_index < 0 then none
    else some (st.1, st.2 ++ [c.vi])
  else
    if c.ti < 0 then none
    else some (st.1 ++ [⟨c.vi, c.ni, c.ti⟩], st.2 ++ [(st.1.length : Int)])

/-- Run the welder loop over a corner list. -/
def weldRun : List Corner → List VertEntry × List Int →
    Option (List VertEntry × List Int)
  | [], st => some st
  | c :: rest, st => do
    let st' ← weldCorner st c
    weldRun rest st'

/-- The welder on frame 0 (lines 372-428): `vert_master` is constructed
with `num_verts` empty entries and `v_faces` with `num_faces*3` slots
(both constructions abort on a negative size), then the loop fills
them. -/
def weldFaces (nf : Int) (fr : JoeFrame) : Option (List VertEntry × List Int) :=
  if nf < 0 ∨ fr.num_verts < 0 ∨ fr.faces.length < nf.toNat then none
  else weldRun (cornersList (fr.faces.take nf.toNat))
    (List.replicate fr.num_verts.toNat VertEntry.empty, [])

/-- The texcoord fetch of the gather loop (lines 459-468): gathered
from the source array only when `tex_index < num_texcoords`, defaulted
to `(0, 0)` otherwise. -/
def gatherTex (fr : JoeFrame) (e : VertEntry) : Option (ℚ × ℚ) :=
  if e.tex_index < fr.num_texcoords then intGet fr.texcoords e.tex_index
  else some ((0 : ℚ), (0 : ℚ))

/-- One slot of the final gather loop (lines 446-470): a populated slot
gathers its position and normal from the source arrays and its texcoord
via `gatherTex`; an unpopulated slot leaves the zero-initialised values
in place. -/
def gatherEntry (fr : JoeFrame) (e : VertEntry) :
    Option (List ℚ × List ℚ × List ℚ) :=
  if 0 ≤ e.original_index then
    (intGet fr.verts e.original_index).bind fun v =>
      (intGet fr.normals e.norm_index).bind fun n =>
        (gatherTex fr e).bind fun t =>
          some ([v.1, v.2.1, v.2.2], [n.1, n.2.1, n.2.2], [t.1, t.2])
  else
    some ([0, 0, 0], [0, 0, 0], [0, 0])

/-- Gather every slot, in table order. -/
def gatherParts (fr : JoeFrame) : List VertEntry →
    Option (List (List ℚ × List ℚ × List ℚ))
  | [] => some []
  | e :: rest => do
    let p ← gatherEntry fr e
    let ps ← gatherParts fr rest
    some (p :: ps)

/-- Concatenate the per-slot rows into the flat arrays `v_vertices`,
`v_normals`, `v_texcoords`. -/
def flatten1 : List (List ℚ × List ℚ × List ℚ) → List ℚ
  | [] => []
  | p :: ps => p.1 ++ flatten1 ps

def flatten2 : List (List ℚ × List ℚ × List ℚ) → List ℚ
  | [] => []
  | p :: ps => p.2.1 ++ flatten2 ps

def flatten3 : List (List ℚ × List ℚ × List ℚ) → List ℚ
  | [] => []
  | p :: ps => p.2.2 ++ flatten3 ps

/-- The fill loop (lines 443-470). -/
def gather (fr : JoeFrame) (vm : List VertEntry) :
    Option (List ℚ × List ℚ × List ℚ) := do
  let ps ← gatherParts fr vm
  some (flatten1 ps, flatten2 ps, flatten3 ps)

/-- The pipeline `ReadData` (lines 271-481): read all frames, scale, run the
heuristic correction, weld frame 0 and hand the arrays to the mesh. -/
def readData (input : JoeInput) : Option WeldedMesh := do
  let frames ← readFrames input.num_faces input.num_frames input.frames
  let frames := frames.map scaleFrame
  let frames ← applyNormalFix input.num_faces frames
  let fr0 ← frames.head?
  let (vm, vfaces) ← weldFaces input.num_faces fr0
  let (vv, vn, vt) ← gather fr0 vm
  some ⟨vfaces, vv, vn, 1, vt⟩

/-- The loader `LoadFromHandle` (lines 235-269): read and correct the header,
validate the version and the face cap (reporting both values on
failure), then delegate to `ReadData`. -/
def loadFromHandle (input : JoeInput) : LoadResult :=
  if input.version ≠ JOE_VERSION then
    .err (.versionMismatch input.version JOE_VERSION)
  else if input.num_faces > JOE_MAX_FACES then
    .err (.faceCountExceeded input.num_faces JOE_MAX_FACES)
  else
    match readData input with
    | some m => .ok m
    | none => .crash

/-! ### Basic access lemmas -/

theorem intGet_eq_some {α : Type} {l : List α} {i : Int} {a : α}
    (h : intGet l i = some a) :
    0 ≤ i ∧ ∃ h2 : i.toNat < l.length, a = l.get ⟨i.toNat, h2⟩ := by
  unfold intGet at h
  split at h
  · rename_i hc
    exact ⟨hc.1, hc.2, (Option.some_inj.mp h).symm⟩
  · exact absurd h (by simp)

theorem intGet_pos {α : Type} {l : List α} {i : Int}
    (h0 : 0 ≤ i) (h2 : i.toNat < l.length) :
    intGet l i = some (l.get ⟨i.toNat, h2⟩) := by
  unfold intGet
  rw [dif_pos ⟨h0, h2⟩]

theorem intGet_bounds {α : Type} {l : List α} {i : Int} {a : α}
    (h : intGet l i = some a) : 0 ≤ i ∧ i.toNat < l.length := by
  obtain ⟨h0, h2, _⟩ := intGet_eq_some h
  exact ⟨h0, h2⟩

theorem mapM_guard {α : Type} (p : α → Prop) [DecidablePred p] :
    ∀ (l res : List α),
      l.mapM (fun x => if p x then some x else none) = some res →
      res = l ∧ ∀ x ∈ l, p x := by
  intro l
  induction l with
  | nil =>
    intro res h
    rw [List.mapM_nil] at h
    exact ⟨(Option.some_inj.mp h).symm, by simp⟩
  | cons a t ih =>
    intro res h
    rw [List.mapM_cons] at h
    by_cases hp : p a
    · rw [if_pos hp] at h
      have h2 : (t.mapM (fun x => if p x then some x else none)).bind
          (fun xs => some (a :: xs)) = some res := h
      obtain ⟨ts, hts, hres⟩ := Option.bind_eq_some.mp h2
      obtain ⟨rfl, hall⟩ := ih ts hts
      refine ⟨(Option.some_inj.mp hres).symm, ?_⟩
      intro x hx
      rcases List.mem_cons.mp hx with rfl | hx
      · exact hp
      · exact hall x hx
    · rw [if_neg hp] at h
      exact absurd h (by simp)

theorem readFrames_some {nf nfr : Int} {avail frames : List JoeFrame}
    (h : readFrames nf nfr avail = some frames) :
    0 ≤ nfr ∧ frames = avail.take nfr.toNat ∧ frames.length = nfr.toNat ∧
      ∀ fr ∈ frames, frameOk nf fr := by
  unfold readFrames at h
  split at h
  · rename_i hc
    obtain ⟨heq, hall⟩ := mapM_guard (frameOk nf) _ _ h
    refine ⟨hc.1, heq, ?_, fun fr hfr => hall fr (heq ▸ hfr)⟩
    rw [heq, List.length_take]
    omega
  · exact absurd h (by simp)

/-! ### `guardMap` lemmas -/

theorem guardMap_length (g : Vec3 → Vec3) (bound : Int) :
    ∀ (i : Int) (l : List Vec3), (guardMap g bound i l).length = l.length := by
  intro i l
  induction l generalizing i with
  | nil => rfl
  | cons v rest ih => simp [guardMap, ih]

theorem guardMap_get (g : Vec3 → Vec3) (bound : Int) :
    ∀ (l : List Vec3) (i : Int) (j : Nat) (hj : j < l.length)
      (hj2 : j < (guardMap g bound i l).length),
      (guardMap g bound i l).get ⟨j, hj2⟩ =
        if i + j < bound then g (l.get ⟨j, hj⟩) else l.get ⟨j, hj⟩ := by
  intro l
  induction l with
  | nil => intro i j hj; exact absurd hj (by simp)
  | cons v rest ih =>
    intro i j hj hj2
    cases j with
    | zero => simp [guardMap]
    | succ k =>
      have hk : k < rest.length := by simpa using hj
      have hk2 : k < (guardMap g bound (i + 1) rest).length := by
        rw [guardMap_length]; exact hk
      have := ih (i + 1) k hk hk2
      simp only [guardMap, List.get_cons_succ]
      rw [this]
      have harith : i + 1 + (k : Int) = i + (k + 1 : Nat) := by push_cast; ring
      rw [harith]

theorem vscale_one (v : Vec3) : vscale MODEL_SCALE v = v := by
  cases v with
  | mk x yz => cases yz; simp [vscale, MODEL_SCALE]

theorem guardMap_scale_id (bound : Int) :
    ∀ (i : Int) (l : List Vec3), guardMap (vscale MODEL_SCALE) bound i l = l := by
  intro i l
  induction l generalizing i with
  | nil => rfl
  | cons v rest ih => simp [guardMap, vscale_one, ih]

/-- The uniform scale is the fixed format constant `1.0`, so the scaling
pass is the identity on every frame. -/
theorem scaleFrame_eq (fr : JoeFrame) : scaleFrame fr = fr := by
  cases fr
  simp [scaleFrame, guardMap_scale_id]

/-! ### Input well-formedness, as used by claim C1 -/

/-- All face indices of the frames to be read are in range: vertex and
normal indices within the declared counts of the frame (`NeedsNormalSwap`
asserts exactly these) and texcoord indices within the texcoord
count. -/
def indicesInRange (input : JoeInput) : Prop :=
  ∀ fr ∈ input.frames.take input.num_frames.toNat, ∀ f ∈ fr.faces,
    ∀ c ∈ faceCorners f,
      0 ≤ c.vi ∧ c.vi < fr.num_verts ∧ 0 ≤ c.ni ∧ c.ni < fr.num_normals ∧
      0 ≤ c.ti ∧ c.ti < fr.num_texcoords

instance (input : JoeInput) : Decidable (indicesInRange input) := by
  unfold indicesInRange; infer_instance

/-- The hypothesis of claim C1 on the frame data: every read returns the
requested count and all face indices are in range. -/
def wellFormed (input : JoeInput) : Prop :=
  (readFrames input.num_faces input.num_frames input.frames).isSome = true ∧
  indicesInRange input

instance (input : JoeInput) : Decidable (wellFormed input) := by
  unfold wellFormed; infer_instance

/-! ### Claim C10: the magic field is never consulted -/

/-- C10: the header magic field is read but never validated: replacing
it changes nothing about the outcome of the load (success, error report, or
resulting welded mesh). -/
theorem c10_magic_ignored (input : JoeInput) (m : Int) :
    loadFromHandle ⟨m, input.version, input.num_faces, input.num_frames, input.frames⟩ =
      loadFromHandle input := by
  cases input
  rfl

/-! ### Claim C7: exact version equality test -/

/-- C7: version validation is an exact equality test against 3: any
other version fails with a version-mismatch error carrying the found
and the expected value, before any frame is read (the error does not
depend on the frame data); version 3 proceeds past this check, so the
outcome is success, a crash, or the later face-cap error. -/
theorem c7_version_check (input : JoeInput) :
    (input.version ≠ 3 →
      loadFromHandle input = .err (.versionMismatch input.version 3)) ∧
    (input.version = 3 →
      (∃ m, loadFromHandle input = .ok m) ∨ loadFromHandle input = .crash ∨
        loadFromHandle input = .err (.faceCountExceeded input.num_faces 32000)) := by
  constructor
  · intro h
    unfold loadFromHandle
    rw [if_pos (show input.version ≠ JOE_VERSION from h)]
    rfl
  · intro h
    unfold loadFromHandle
    rw [if_neg (by simp [h, JOE_VERSION])]
    by_cases hf : input.num_faces > JOE_MAX_FACES
    · rw [if_pos hf]
      exact Or.inr (Or.inr rfl)
    · rw [if_neg hf]
      cases hrd : readData input with
      | some m => exact Or.inl ⟨m, rfl⟩
      | none => exact Or.inr (Or.inl rfl)

def exV2 : JoeInput := ⟨0, 2, 0, 0, []⟩

def exV3 : JoeInput := ⟨0, 3, 0, 0, []⟩

theorem c7_witness :
    (loadFromHandle exV2 = .err (.versionMismatch 2 3)) ∧
    ((∃ m, loadFromHandle exV3 = .ok m) ∨ loadFromHandle exV3 = .crash ∨
      loadFromHandle exV3 = .err (.faceCountExceeded exV3.num_faces 32000)) :=
  ⟨(c7_version_check exV2).1 (by decide), (c7_version_check exV3).2 rfl⟩

/-! ### Claim C6: inclusive face-cap boundary -/

/-- C6: the face cap is inclusive at the boundary: with version 3, a
header with 32000 faces passes validation (the load proceeds to frame
reading, so it either succeeds or aborts there, and never reports a
validation error), while 32001 fails with the over-limit error carrying
the found count and the maximum, whatever the frame data holds. -/
theorem c6_face_cap (input : JoeInput) (hv : input.version = 3) :
    (input.num_faces = 32000 →
      (∃ m, loadFromHandle input = .ok m) ∨ loadFromHandle input = .crash) ∧
    (input.num_faces = 32001 →
      loadFromHandle input = .err (.faceCountExceeded 32001 32000)) := by
  constructor
  · intro h
    unfold loadFromHandle
    rw [if_neg (by simp [hv, JOE_VERSION]), if_neg (by simp [h, JOE_MAX_FACES])]
    cases hrd : readData input with
    | some m => exact Or.inl ⟨m, rfl⟩
    | none => exact Or.inr rfl
  · intro h
    unfold loadFromHandle
    rw [if_neg (by simp [hv, JOE_VERSION]), if_pos (by simp [h, JOE_MAX_FACES])]
    rw [h]
    rfl

def exF0 : JoeInput := ⟨0, 3, 32000, 0, []⟩

def exF1 : JoeInput := ⟨0, 3, 32001, 0, []⟩

theorem c6_witness :
    ((∃ m, loadFromHandle exF0 = .ok m) ∨ loadFromHandle exF0 = .crash) ∧
    (loadFromHandle exF1 = .err (.faceCountExceeded 32001 32000)) :=
  ⟨(c6_face_cap exF0 rfl).1 rfl, (c6_face_cap exF1 rfl).2 rfl⟩

/-! ### Claim C1, counterexample part -/

/-- A header with zero frames: version 3, face count within the cap,
all (zero) reads succeed and all (zero) face indices are in range, yet
the load aborts, because the welder unconditionally accesses
`Object.frames[0]`. -/
def inputC1 : JoeInput := ⟨0, 3, 0, 0, []⟩

/-- C1 fails as stated: `inputC1` satisfies every hypothesis of the
claim but the load does not succeed (the welder access to frame 0 of
an empty frame vector aborts). -/
theorem c1_counterexample :
    (inputC1.version = 3 ∧ inputC1.num_faces ≤ 32000 ∧ wellFormed inputC1) ∧
    loadFromHandle inputC1 = .crash := by
  constructor
  · exact ⟨rfl, by decide, by decide⟩
  · decide

/-! ### Claim C2, counterexample part -/

/-- One vertex position used by three corners with attribute pairs
`(0,0)`, `(1,1)`, `(1,1)`: the second and third corner each append an
entry, because a mismatching corner is only ever compared with the seed
slot of its vertex, so the final table holds two identical populated
entries. -/
def frDup : JoeFrame :=
  ⟨1, 2, 2,
   [⟨(0, 0, 0), (0, 1, 1), (0, 1, 1)⟩],
   [((0 : ℚ), 0, 0)],
   [((1 : ℚ), 0, 0), ((0 : ℚ), 1, 0)],
   [((0 : ℚ), 0), ((1 : ℚ), 1)]⟩

/-- Claim C2 as stated: any two distinct populated entries of a welder
table hold distinct `(vertex, normal, texcoord)` triples. -/
def entriesDistinct (vm : List VertEntry) : Prop :=
  ∀ (i j : Fin vm.length), i ≠ j →
    (vm.get i).original_index ≠ -1 → (vm.get j).original_index ≠ -1 →
    vm.get i ≠ vm.get j

instance (vm : List VertEntry) : Decidable (entriesDistinct vm) := by
  unfold entriesDistinct; infer_instance

/-- C2 fails as stated: welding `frDup` (a well-formed frame: all reads
and all index ranges check out) produces a table whose two appended
entries are identical populated triples. -/
theorem c2_counterexample :
    frameOk 1 frDup ∧ wellFormed ⟨0, 3, 1, 1, [frDup]⟩ ∧
    weldFaces 1 frDup = some ([⟨0, 0, 0⟩, ⟨0, 1, 1⟩, ⟨0, 1, 1⟩], [0, 1, 2]) ∧
    ¬ entriesDistinct [⟨0, 0, 0⟩, ⟨0, 1, 1⟩, ⟨0, 1, 1⟩] := by
  refine ⟨by decide, by decide, by decide, by decide⟩

/-! ### More `intGet` lemmas -/

theorem intGet_set_self {α : Type} {l : List α} {n : Nat} (e : α)
    (hn : n < l.length) : intGet (l.set n e) (n : Int) = some e := by
  have hlen : ((n : Int)).toNat < (l.set n e).length := by
    rw [List.length_set]; simpa using hn
  rw [intGet_pos (by positivity) hlen]
  congr 1
  rw [List.get_eq_getElem]
  simp [List.getElem_set_self]

theorem intGet_set_ne {α : Type} {l : List α} {n : Nat} (e : α) {k : Int}
    (hk : k.toNat ≠ n ∨ k < 0) : intGet (l.set n e) k = intGet l k := by
  by_cases hc : 0 ≤ k ∧ k.toNat < l.length
  · have hc2 : 0 ≤ k ∧ k.toNat < (l.set n e).length := by
      rw [List.length_set]; exact hc
    rw [intGet_pos hc2.1 hc2.2, intGet_pos hc.1 hc.2]
    congr 1
    rw [List.get_eq_getElem, List.get_eq_getElem]
    refine List.getElem_set_ne ?_ _
    show n ≠ k.toNat
    rcases hk with hk | hk
    · omega
    · omega
  · unfold intGet
    rw [dif_neg (by rw [List.length_set]; exact hc), dif_neg hc]

theorem intGet_append_left {α : Type} {l l2 : List α} {k : Int}
    (hk : k.toNat < l.length ∨ k < 0) : intGet (l ++ l2) k = intGet l k := by
  by_cases h0 : 0 ≤ k
  · have hklt : k.toNat < l.length := by
      rcases hk with hk | hk
      · exact hk
      · omega
    have hc2 : 0 ≤ k ∧ k.toNat < (l ++ l2).length := by
      rw [List.length_append]; exact ⟨h0, by omega⟩
    rw [intGet_pos hc2.1 hc2.2, intGet_pos h0 hklt]
    congr 1
    rw [List.get_eq_getElem, List.get_eq_getElem]
    exact List.getElem_append_left hklt
  · unfold intGet
    rw [dif_neg (by omega), dif_neg (by omega)]

theorem intGet_append_last {α : Type} (l : List α) (e : α) :
    intGet (l ++ [e]) (l.length : Int) = some e := by
  have hlen : ((l.length : Int)).toNat < (l ++ [e]).length := by
    simp
  rw [intGet_pos (by positivity) hlen]
  congr 1
  rw [List.get_eq_getElem]
  exact List.getElem_concat_length l e _ (by simp) _

theorem intGet_replicate {α : Type} {n : Nat} {x e : α} {k : Int}
    (h : intGet (List.replicate n x) k = some e) : e = x := by
  obtain ⟨_, h2, he⟩ := intGet_eq_some h
  rw [he, List.get_eq_getElem]
  exact List.getElem_replicate x _

/-! ### Welder step inversion and totality -/

/-- Two table entries agree on their (normal, texcoord) pair: the
reuse test of the welder. -/
def pairEq (a b : VertEntry) : Prop :=
  a.norm_index = b.norm_index ∧ a.tex_index = b.tex_index

instance (a b : VertEntry) : Decidable (pairEq a b) := by
  unfold pairEq; infer_instance

/-- Case analysis of one successful welder iteration: the seed branch,
the reuse branch, or the append branch of lines 386-426. -/
theorem weldCorner_inv {st st' : List VertEntry × List Int} {c : Corner}
    (h : weldCorner st c = some st') :
    ∃ ve, intGet st.1 c.vi = some ve ∧
      ((ve.original_index = -1 ∧ 0 ≤ c.ti ∧
          st' = (st.1.set c.vi.toNat ⟨c.vi, c.ni, c.ti⟩, st.2 ++ [c.vi])) ∨
        (ve.original_index ≠ -1 ∧ ve.norm_index = c.ni ∧ ve.tex_index = c.ti ∧
          0 ≤ ve.tex_index ∧ st' = (st.1, st.2 ++ [c.vi])) ∨
        (ve.original_index ≠ -1 ∧ ¬ (ve.norm_index = c.ni ∧ ve.tex_index = c.ti) ∧
          0 ≤ c.ti ∧
          st' = (st.1 ++ [⟨c.vi, c.ni, c.ti⟩], st.2 ++ [(st.1.length : Int)]))) := by
  have h2 : (intGet st.1 c.vi).bind (fun ve =>
      if ve.original_index = -1 then
        if c.ti < 0 then none
        else some (st.1.set c.vi.toNat ⟨c.vi, c.ni, c.ti⟩, st.2 ++ [c.vi])
      else if ve.norm_index = c.ni ∧ ve.tex_index = c.ti then
        if ve.tex_index < 0 then none
        else some (st.1, st.2 ++ [c.vi])
      else
        if c.ti < 0 then none
        else some (st.1 ++ [⟨c.vi, c.ni, c.ti⟩], st.2 ++ [(st.1.length : Int)])) =
      some st' := h
  obtain ⟨ve, hve, hbr⟩ := Option.bind_eq_some.mp h2
  refine ⟨ve, hve, ?_⟩
  by_cases h1 : ve.original_index = -1
  · rw [if_pos h1] at hbr
    by_cases ht : c.ti < 0
    · rw [if_pos ht] at hbr
      exact absurd hbr (by simp)
    · rw [if_neg ht] at hbr
      exact Or.inl ⟨h1, by omega, (Option.some_inj.mp hbr).symm⟩
  · rw [if_neg h1] at hbr
    by_cases hm : ve.norm_index = c.ni ∧ ve.tex_index = c.ti
    · rw [if_pos hm] at hbr
      by_cases ht : ve.tex_index < 0
      · rw [if_pos ht] at hbr
        exact absurd hbr (by simp)
      · rw [if_neg ht] at hbr
        exact Or.inr (Or.inl ⟨h1, hm.1, hm.2, by omega, (Option.some_inj.mp hbr).symm⟩)
    · rw [if_neg hm] at hbr
      by_cases ht : c.ti < 0
      · rw [if_pos ht] at hbr
        exact absurd hbr (by simp)
      · rw [if_neg ht] at hbr
        exact Or.inr (Or.inr ⟨h1, hm, by omega, (Option.some_inj.mp hbr).symm⟩)

/-- A welder iteration succeeds whenever the vertex index of the corner hits
the table and its texcoord index is nonnegative. -/
theorem weldCorner_total {st : List VertEntry × List Int} {c : Corner}
    (h0 : 0 ≤ c.vi) (hlt : c.vi.toNat < st.1.length) (hti : 0 ≤ c.ti) :
    ∃ st', weldCorner st c = some st' := by
  unfold weldCorner
  rw [intGet_pos h0 hlt, Option.bind_eq_bind', Option.some_bind]
  set ve := st.1.get ⟨c.vi.toNat, hlt⟩ with hve
  by_cases h1 : ve.original_index = -1
  · rw [if_pos h1, if_neg (by omega)]
    exact ⟨_, rfl⟩
  · rw [if_neg h1]
    by_cases hm : ve.norm_index = c.ni ∧ ve.tex_index = c.ti
    · rw [if_pos hm, if_neg (by omega)]
      exact ⟨_, rfl⟩
    · rw [if_neg hm, if_neg (by omega)]
      exact ⟨_, rfl⟩

/-- A successful welder iteration grows the table by zero or one entry,
preserves the length bound of the table, appends exactly one output
index, and never modifies a populated entry. -/
theorem weldCorner_extends {st st' : List VertEntry × List Int} {c : Corner}
    (h : weldCorner st c = some st') :
    st.1.length ≤ st'.1.length ∧ st'.2.length = st.2.length + 1 ∧
      ∀ k e, intGet st.1 k = some e → e.original_index ≠ -1 →
        intGet st'.1 k = some e := by
  obtain ⟨ve, hve, hbr⟩ := weldCorner_inv h
  obtain ⟨hvi0, hvilt⟩ := intGet_bounds hve
  rcases hbr with ⟨hemp, _, rfl⟩ | ⟨_, _, _, _, rfl⟩ | ⟨_, _, _, rfl⟩
  · refine ⟨by rw [List.length_set], by simp, ?_⟩
    intro k e hk hpop
    rw [intGet_set_ne]
    · exact hk
    · by_cases hkv : k = c.vi
      · subst hkv
        obtain ⟨h0k, h2k, hek⟩ := intGet_eq_some hk
        have : e = ve := by
          rw [hek]
          obtain ⟨_, _, hve2⟩ := intGet_eq_some hve
          rw [hve2]
        exact absurd (this ▸ hemp) hpop
      · left
        intro hcon
        obtain ⟨h0k, _, _⟩ := intGet_eq_some hk
        omega
  · exact ⟨le_refl _, by simp, fun k e hk _ => hk⟩
  · refine ⟨by simp, by simp, ?_⟩
    intro k e hk _
    rw [intGet_append_left]
    · exact hk
    · obtain ⟨h0k, h2k, _⟩ := intGet_eq_some hk
      exact Or.inl h2k

/-- Invariant preservation along the welder loop. -/
theorem weldRun_inv {P : List VertEntry × List Int → Prop} :
    ∀ (l : List Corner) (st fin : List VertEntry × List Int),
      (∀ s c s', c ∈ l → weldCorner s c = some s' → P s → P s') →
      weldRun l st = some fin → P st → P fin := by
  intro l
  induction l with
  | nil =>
    intro st fin _ h hP
    rw [Option.some_inj.mp h] at hP
    exact hP
  | cons c rest ih =>
    intro st fin hstep h hP
    have h2 : (weldCorner st c).bind (fun s => weldRun rest s) = some fin := h
    obtain ⟨st', hst', hrest⟩ := Option.bind_eq_some.mp h2
    exact ih st' fin
      (fun s c' s' hc' => hstep s c' s' (List.mem_cons_of_mem c hc'))
      hrest (hstep st c st' (List.mem_cons_self c rest) hst' hP)

/-- Totality of the welder loop under an invariant that keeps every
step succeeding. -/
theorem weldRun_total {P : List VertEntry × List Int → Prop} :
    ∀ (l : List Corner) (st : List VertEntry × List Int),
      (∀ s c, c ∈ l → P s → ∃ s', weldCorner s c = some s' ∧ P s') →
      P st → ∃ fin, weldRun l st = some fin ∧ P fin := by
  intro l
  induction l with
  | nil =>
    intro st _ hP
    exact ⟨st, rfl, hP⟩
  | cons c rest ih =>
    intro st hstep hP
    obtain ⟨st', hst', hP'⟩ := hstep st c (List.mem_cons_self c rest) hP
    obtain ⟨fin, hfin, hPfin⟩ := ih st'
      (fun s c' hc' => hstep s c' (List.mem_cons_of_mem c hc')) hP'
    refine ⟨fin, ?_, hPfin⟩
    have : (weldCorner st c).bind (fun s => weldRun rest s) = some fin := by
      rw [hst', Option.some_bind]
      exact hfin
    exact this

/-- The welder loop appends exactly one output index per corner. -/
theorem weldRun_out_length :
    ∀ (l : List Corner) (st fin : List VertEntry × List Int),
      weldRun l st = some fin → fin.2.length = st.2.length + l.length := by
  intro l
  induction l with
  | nil =>
    intro st fin h
    rw [Option.some_inj.mp h]
    simp
  | cons c rest ih =>
    intro st fin h
    have h2 : (weldCorner st c).bind (fun s => weldRun rest s) = some fin := h
    obtain ⟨st', hst', hrest⟩ := Option.bind_eq_some.mp h2
    have := ih st' fin hrest
    have hstep := (weldCorner_extends hst').2.1
    rw [this, hstep, List.length_cons]
    omega

theorem intGet_fin {α : Type} (l : List α) (i : Fin l.length) :
    intGet l ((i.val : Nat) : Int) = some (l.get i) := by
  rw [intGet_pos (by positivity) (by simp)]
  exact congrArg some (congrArg l.get (Fin.ext (by simp)))

/-! ### The welder table invariant (claim C2) -/

/-- The standing invariant of the welder table with seed region
`nverts`:
* the table never shrinks below the seed region;
* a populated seed slot records its own index as its vertex index;
* every appended entry is populated and, when its vertex index points
  into the seed region, the seed slot it points at is populated and
  disagrees with it on the (normal, texcoord) pair — the append branch
  fires only on a mismatch with that slot, and populated entries are
  never modified again. -/
def weldInv (nverts : Nat) (vm : List VertEntry) : Prop :=
  nverts ≤ vm.length ∧
  (∀ k e, intGet vm k = some e → k.toNat < nverts → e.original_index ≠ -1 →
    e.original_index = k) ∧
  (∀ k e, intGet vm k = some e → nverts ≤ k.toNat →
    e.original_index ≠ -1 ∧
    ∀ s, intGet vm e.original_index = some s → e.original_index.toNat < nverts →
      s.original_index ≠ -1 ∧ ¬ pairEq s e)

theorem weldInv_init (nverts : Nat) :
    weldInv nverts (List.replicate nverts VertEntry.empty) := by
  refine ⟨by simp, ?_, ?_⟩
  · intro k e hk _ hpope
    rw [intGet_replicate hk] at hpope
    exact absurd rfl hpope
  · intro k e hk hkge
    obtain ⟨_, hb⟩ := intGet_bounds hk
    rw [List.length_replicate] at hb
    omega

theorem weldInv_preserved {nverts : Nat} {st st' : List VertEntry × List Int}
    {c : Corner} (h : weldCorner st c = some st')
    (hinv : weldInv nverts st.1) : weldInv nverts st'.1 := by
  obtain ⟨hlen, hseed, happ⟩ := hinv
  obtain ⟨ve, hve, hbr⟩ := weldCorner_inv h
  obtain ⟨hvi0, hvilt⟩ := intGet_bounds hve
  rcases hbr with ⟨hemp, hti, rfl⟩ | ⟨_, _, _, _, rfl⟩ | ⟨hpop, hmis, hti, rfl⟩
  · have hviseed : c.vi.toNat < nverts := by
      by_contra hge
      exact (happ c.vi ve hve (by omega)).1 hemp
    refine ⟨by rw [List.length_set]; exact hlen, ?_, ?_⟩
    · intro k e hk hklt hpope
      by_cases hkc : k = c.vi
      · subst hkc
        have hset := intGet_set_self (l := st.1) (n := c.vi.toNat)
          (⟨c.vi, c.ni, c.ti⟩ : VertEntry) hvilt
        rw [Int.toNat_of_nonneg hvi0] at hset
        rw [hset] at hk
        rw [← Option.some_inj.mp hk]
      · rw [intGet_set_ne] at hk
        · exact hseed k e hk hklt hpope
        · by_cases hk0 : 0 ≤ k
          · refine Or.inl fun hcon => hkc ?_
            omega
          · exact Or.inr (by omega)
    · intro k e hk hkge
      have hkne : k.toNat ≠ c.vi.toNat := by omega
      rw [intGet_set_ne _ (Or.inl hkne)] at hk
      obtain ⟨hpope, hinner⟩ := happ k e hk hkge
      refine ⟨hpope, ?_⟩
      intro s hs hosmall
      by_cases hoc : e.original_index = c.vi
      · exfalso
        exact (hinner ve (by rw [hoc]; exact hve) hosmall).1 hemp
      · rw [intGet_set_ne] at hs
        · exact hinner s hs hosmall
        · by_cases ho0 : 0 ≤ e.original_index
          · refine Or.inl fun hcon => hoc ?_
            omega
          · exact Or.inr (by omega)
  · exact ⟨hlen, hseed, happ⟩
  · refine ⟨?_, ?_, ?_⟩
    · rw [List.length_append, List.length_singleton]
      omega
    · intro k e hk hklt hpope
      rw [intGet_append_left (Or.inl (by omega))] at hk
      exact hseed k e hk hklt hpope
    · intro k e hk hkge
      obtain ⟨hk0, hkbound⟩ := intGet_bounds hk
      rw [List.length_append, List.length_singleton] at hkbound
      by_cases hkold : k.toNat < st.1.length
      · rw [intGet_append_left (Or.inl hkold)] at hk
        obtain ⟨hpope, hinner⟩ := happ k e hk hkge
        refine ⟨hpope, ?_⟩
        intro s hs hosmall
        rw [intGet_append_left (Or.inl (by omega))] at hs
        exact hinner s hs hosmall
      · have hkeq : k = (st.1.length : Int) := by omega
        rw [hkeq, intGet_append_last] at hk
        rw [← Option.some_inj.mp hk]
        refine ⟨by simp only []; omega, ?_⟩
        intro s hs hosmall
        simp only [] at hosmall hs
        rw [intGet_append_left (Or.inl (by omega))] at hs
        rw [hve] at hs
        rw [← Option.some_inj.mp hs]
        refine ⟨hpop, ?_⟩
        intro hpe
        exact hmis ⟨hpe.1, hpe.2⟩

/-- Distinctness of populated entries, one of them a seed slot, from
the invariant. -/
theorem weldInv_distinct {nverts : Nat} {vm : List VertEntry}
    (hinv : weldInv nverts vm) (i j : Fin vm.length) (hne : i ≠ j)
    (hseedi : i.val < nverts)
    (hpi : (vm.get i).original_index ≠ -1)
    (hpj : (vm.get j).original_index ≠ -1) :
    vm.get i ≠ vm.get j := by
  obtain ⟨hlen, hseed, happ⟩ := hinv
  intro heq
  have horigi : (vm.get i).original_index = ((i.val : Nat) : Int) :=
    hseed _ _ (intGet_fin vm i) (by simpa using hseedi) hpi
  by_cases hjseed : j.val < nverts
  · have horigj : (vm.get j).original_index = ((j.val : Nat) : Int) :=
      hseed _ _ (intGet_fin vm j) (by simpa using hjseed) hpj
    rw [heq, horigj] at horigi
    exact hne (Fin.ext (by omega))
  · obtain ⟨_, hinner⟩ := happ _ _ (intGet_fin vm j) (by simpa using hjseed)
    have horigj : (vm.get j).original_index = ((i.val : Nat) : Int) := by
      rw [← heq, horigi]
    have hs : intGet vm ((vm.get j).original_index) = some (vm.get i) := by
      rw [horigj]
      exact intGet_fin vm i
    have := (hinner (vm.get i) hs (by rw [horigj]; simpa using hseedi)).2
    exact this ⟨by rw [heq], by rw [heq]⟩

/-- C2, amended: any two distinct populated entries of the final welder
table of which at least one lies in the seed region (index below the
original vertex count) hold distinct triples.  (Two appended entries
can coincide: `c2_counterexample`.) -/
theorem c2_amended (nf : Int) (fr : JoeFrame) (vm : List VertEntry)
    (out : List Int) (h : weldFaces nf fr = some (vm, out))
    (i j : Fin vm.length) (hne : i ≠ j)
    (hseed : i.val < fr.num_verts.toNat ∨ j.val < fr.num_verts.toNat)
    (hpi : (vm.get i).original_index ≠ -1)
    (hpj : (vm.get j).original_index ≠ -1) :
    vm.get i ≠ vm.get j := by
  have hinv : weldInv fr.num_verts.toNat vm := by
    unfold weldFaces at h
    split at h
    · exact absurd h (by simp)
    · exact weldRun_inv (P := fun st => weldInv fr.num_verts.toNat st.1) _ _ _
        (fun s c s' _ hc hP => weldInv_preserved hc hP) h
        (weldInv_init fr.num_verts.toNat)
  rcases hseed with hs | hs
  · exact weldInv_distinct hinv i j hne hs hpi hpj
  · exact (weldInv_distinct hinv j i hne.symm hs hpj hpi).symm

def frW : JoeFrame :=
  ⟨3, 3, 3,
   [⟨(0, 1, 2), (0, 1, 2), (0, 1, 2)⟩],
   [((0 : ℚ), 0, 0), ((1 : ℚ), 0, 0), ((0 : ℚ), 1, 0)],
   [((0 : ℚ), 0, 1), ((0 : ℚ), 0, 1), ((0 : ℚ), 0, 1)],
   [((0 : ℚ), 0), ((1 : ℚ), 0), ((0 : ℚ), 1)]⟩

def vmW : List VertEntry := [⟨0, 0, 0⟩, ⟨1, 1, 1⟩, ⟨2, 2, 2⟩]

def finW0 : Fin vmW.length := ⟨0, by decide⟩

def finW1 : Fin vmW.length := ⟨1, by decide⟩

theorem c2_witness :
    (weldFaces 1 frW = some (vmW, [0, 1, 2]) ∧ finW0 ≠ finW1 ∧
      finW0.val < frW.num_verts.toNat ∧
      (vmW.get finW0).original_index ≠ -1 ∧
      (vmW.get finW1).original_index ≠ -1) ∧
    vmW.get finW0 ≠ vmW.get finW1 :=
  ⟨⟨by decide, by decide, by decide, by decide, by decide⟩,
    c2_amended 1 frW vmW [0, 1, 2] (by decide) finW0 finW1 (by decide)
      (Or.inl (by decide)) (by decide) (by decide)⟩

/-! ### Claim C8: welding is size-preserving on unique attribute maps -/

/-- Invariant for claim C8: the table keeps its initial size and every
populated entry has its (vertex, normal, texcoord) data witnessed by some
corner of the processed face list. -/
def weldUniq (corners : List Corner) (nverts : Nat) (vm : List VertEntry) : Prop :=
  vm.length = nverts ∧
  ∀ k e, intGet vm k = some e → e.original_index ≠ -1 →
    ∃ c ∈ corners, c.vi = k ∧ c.ni = e.norm_index ∧ c.ti = e.tex_index

theorem weldUniq_preserved {cornersAll : List Corner} {nverts : Nat}
    (huniq : ∀ c1 ∈ cornersAll, ∀ c2 ∈ cornersAll, c1.vi = c2.vi →
      c1.ni = c2.ni ∧ c1.ti = c2.ti)
    {st st' : List VertEntry × List Int} {c : Corner} (hc : c ∈ cornersAll)
    (h : weldCorner st c = some st')
    (hinv : weldUniq cornersAll nverts st.1) :
    weldUniq cornersAll nverts st'.1 := by
  obtain ⟨hlen, hwit⟩ := hinv
  obtain ⟨ve, hve, hbr⟩ := weldCorner_inv h
  obtain ⟨hvi0, hvilt⟩ := intGet_bounds hve
  rcases hbr with ⟨hemp, hti, rfl⟩ | ⟨_, _, _, _, rfl⟩ | ⟨hpop, hmis, hti, rfl⟩
  · refine ⟨by rw [List.length_set]; exact hlen, ?_⟩
    intro k e hk hpope
    by_cases hkc : k = c.vi
    · subst hkc
      have hset := intGet_set_self (l := st.1) (n := c.vi.toNat)
        (⟨c.vi, c.ni, c.ti⟩ : VertEntry) hvilt
      rw [Int.toNat_of_nonneg hvi0] at hset
      rw [hset] at hk
      rw [← Option.some_inj.mp hk]
      exact ⟨c, hc, rfl, rfl, rfl⟩
    · rw [intGet_set_ne] at hk
      · exact hwit k e hk hpope
      · by_cases hk0 : 0 ≤ k
        · refine Or.inl fun hcon => hkc ?_
          omega
        · exact Or.inr (by omega)
  · exact ⟨hlen, hwit⟩
  · exfalso
    obtain ⟨c0, hc0mem, hc0vi, hc0ni, hc0ti⟩ := hwit c.vi ve hve hpop
    obtain ⟨hni, hti2⟩ := huniq c0 hc0mem c hc hc0vi
    refine hmis ⟨?_, ?_⟩
    · rw [← hc0ni, hni]
    · rw [← hc0ti, hti2]

/-- C8: when every vertex position index carries exactly one (normal,
texcoord) pair over all corners of the welded faces, the welder appends
nothing: the final table length equals the original vertex count. -/
theorem c8_weld_idempotent (nf : Int) (fr : JoeFrame) (vm : List VertEntry)
    (out : List Int) (h : weldFaces nf fr = some (vm, out))
    (huniq : ∀ c1 ∈ cornersList (fr.faces.take nf.toNat),
      ∀ c2 ∈ cornersList (fr.faces.take nf.toNat),
      c1.vi = c2.vi → c1.ni = c2.ni ∧ c1.ti = c2.ti) :
    vm.length = fr.num_verts.toNat := by
  unfold weldFaces at h
  split at h
  · exact absurd h (by simp)
  · refine (weldRun_inv
      (P := fun st => weldUniq (cornersList (fr.faces.take nf.toNat))
        fr.num_verts.toNat st.1) _ _ _
      (fun s c s' hcm hc hP => weldUniq_preserved huniq hcm hc hP) h
      ⟨by simp, ?_⟩).1
    intro k e hk hpope
    rw [intGet_replicate hk] at hpope
    exact absurd rfl hpope

theorem c8_witness :
    (weldFaces 1 frW = some (vmW, [0, 1, 2]) ∧
      (∀ c1 ∈ cornersList (frW.faces.take (1 : Int).toNat),
        ∀ c2 ∈ cornersList (frW.faces.take (1 : Int).toNat),
        c1.vi = c2.vi → c1.ni = c2.ni ∧ c1.ti = c2.ti)) ∧
    vmW.length = frW.num_verts.toNat :=
  ⟨⟨by decide, by decide⟩,
    c8_weld_idempotent 1 frW vmW [0, 1, 2] (by decide) (by decide)⟩

/-! ### Gather shape lemmas -/

theorem gatherEntry_shape {fr : JoeFrame} {e : VertEntry}
    {p : List ℚ × List ℚ × List ℚ} (h : gatherEntry fr e = some p) :
    p.1.length = 3 ∧ p.2.1.length = 3 ∧ p.2.2.length = 2 := by
  unfold gatherEntry at h
  split at h
  · obtain ⟨v, hv, h3⟩ := Option.bind_eq_some.mp h
    obtain ⟨n, hn, h4⟩ := Option.bind_eq_some.mp h3
    obtain ⟨t, ht, h5⟩ := Option.bind_eq_some.mp h4
    rw [← Option.some_inj.mp h5]
    exact ⟨rfl, rfl, rfl⟩
  · rw [← Option.some_inj.mp h]
    exact ⟨rfl, rfl, rfl⟩

theorem gatherParts_some {fr : JoeFrame} :
    ∀ {vm : List VertEntry} {ps : List (List ℚ × List ℚ × List ℚ)},
      gatherParts fr vm = some ps →
      ps.length = vm.length ∧
        ∀ p ∈ ps, p.1.length = 3 ∧ p.2.1.length = 3 ∧ p.2.2.length = 2 := by
  intro vm
  induction vm with
  | nil =>
    intro ps h
    rw [← Option.some_inj.mp h]
    exact ⟨rfl, by simp⟩
  | cons e rest ih =>
    intro ps h
    have h2 : (gatherEntry fr e).bind (fun p =>
        (gatherParts fr rest).bind (fun pr => some (p :: pr))) = some ps := h
    obtain ⟨p, hp, h3⟩ := Option.bind_eq_some.mp h2
    obtain ⟨pr, hpr, h4⟩ := Option.bind_eq_some.mp h3
    obtain ⟨hlen, hall⟩ := ih hpr
    rw [← Option.some_inj.mp h4]
    refine ⟨by simp [hlen], ?_⟩
    intro q hq
    rcases List.mem_cons.mp hq with rfl | hq
    · exact gatherEntry_shape hp
    · exact hall q hq

theorem flatten1_length :
    ∀ (ps : List (List ℚ × List ℚ × List ℚ)), (∀ p ∈ ps, p.1.length = 3) →
      (flatten1 ps).length = 3 * ps.length := by
  intro ps
  induction ps with
  | nil => intro _; rfl
  | cons p rest ih =>
    intro hall
    have hp := hall p (List.mem_cons_self p rest)
    have := ih (fun q hq => hall q (List.mem_cons_of_mem p hq))
    simp only [flatten1, List.length_append, this, hp, List.length_cons]
    ring

theorem flatten2_length :
    ∀ (ps : List (List ℚ × List ℚ × List ℚ)), (∀ p ∈ ps, p.2.1.length = 3) →
      (flatten2 ps).length = 3 * ps.length := by
  intro ps
  induction ps with
  | nil => intro _; rfl
  | cons p rest ih =>
    intro hall
    have hp := hall p (List.mem_cons_self p rest)
    have := ih (fun q hq => hall q (List.mem_cons_of_mem p hq))
    simp only [flatten2, List.length_append, this, hp, List.length_cons]
    ring

theorem flatten3_length :
    ∀ (ps : List (List ℚ × List ℚ × List ℚ)), (∀ p ∈ ps, p.2.2.length = 2) →
      (flatten3 ps).length = 2 * ps.length := by
  intro ps
  induction ps with
  | nil => intro _; rfl
  | cons p rest ih =>
    intro hall
    have hp := hall p (List.mem_cons_self p rest)
    have := ih (fun q hq => hall q (List.mem_cons_of_mem p hq))
    simp only [flatten3, List.length_append, this, hp, List.length_cons]
    ring

/-! ### Load decomposition -/

theorem loadFromHandle_ok {input : JoeInput} {mesh : WeldedMesh}
    (h : loadFromHandle input = .ok mesh) : readData input = some mesh := by
  unfold loadFromHandle at h
  split at h
  · exact absurd h (by simp)
  · split at h
    · exact absurd h (by simp)
    · split at h
      · rename_i m hm
        injection h with h2
        rw [hm, h2]
      · exact absurd h (by simp)

theorem readData_inversion {input : JoeInput} {mesh : WeldedMesh}
    (h : readData input = some mesh) :
    ∃ frames0 frames fr0 vm vfaces ps,
      readFrames input.num_faces input.num_frames input.frames = some frames0 ∧
      applyNormalFix input.num_faces (frames0.map scaleFrame) = some frames ∧
      frames.head? = some fr0 ∧
      weldFaces input.num_faces fr0 = some (vm, vfaces) ∧
      gatherParts fr0 vm = some ps ∧
      mesh = ⟨vfaces, flatten1 ps, flatten2 ps, 1, flatten3 ps⟩ := by
  have h2 : (readFrames input.num_faces input.num_frames input.frames).bind
      (fun frames0 =>
        (applyNormalFix input.num_faces (frames0.map scaleFrame)).bind
          (fun frames =>
            frames.head?.bind (fun fr0 =>
              (weldFaces input.num_faces fr0).bind (fun p =>
                (gather fr0 p.1).bind (fun q =>
                  some ⟨p.2, q.1, q.2.1, 1, q.2.2⟩))))) =
      some mesh := h
  obtain ⟨frames0, hf0, h3⟩ := Option.bind_eq_some.mp h2
  obtain ⟨frames, hfix, h4⟩ := Option.bind_eq_some.mp h3
  obtain ⟨fr0, hhead, h5⟩ := Option.bind_eq_some.mp h4
  obtain ⟨p, hweld, h6⟩ := Option.bind_eq_some.mp h5
  obtain ⟨q, hq, h7⟩ := Option.bind_eq_some.mp h6
  have hq2 : (gatherParts fr0 p.1).bind
      (fun ps => some (flatten1 ps, flatten2 ps, flatten3 ps)) = some q := hq
  obtain ⟨ps, hps, hq3⟩ := Option.bind_eq_some.mp hq2
  refine ⟨frames0, frames, fr0, p.1, p.2, ps, hf0, hfix, hhead, hweld, hps, ?_⟩
  rw [← Option.some_inj.mp h7, ← Option.some_inj.mp hq3]

/-! ### Claim C3: output indices are in range -/

/-- The output indices produced so far all point into the current
table. -/
def outBound (st : List VertEntry × List Int) : Prop :=
  ∀ x ∈ st.2, 0 ≤ x ∧ x.toNat < st.1.length

theorem outBound_preserved {st st' : List VertEntry × List Int} {c : Corner}
    (h : weldCorner st c = some st') (hb : outBound st) : outBound st' := by
  obtain ⟨ve, hve, hbr⟩ := weldCorner_inv h
  obtain ⟨hvi0, hvilt⟩ := intGet_bounds hve
  rcases hbr with ⟨_, _, rfl⟩ | ⟨_, _, _, _, rfl⟩ | ⟨_, _, _, rfl⟩
  · intro x hx
    rw [List.length_set]
    rcases List.mem_append.mp hx with hx | hx
    · exact hb x hx
    · rw [List.mem_singleton.mp hx]
      exact ⟨hvi0, hvilt⟩
  · intro x hx
    rcases List.mem_append.mp hx with hx | hx
    · exact hb x hx
    · rw [List.mem_singleton.mp hx]
      exact ⟨hvi0, hvilt⟩
  · intro x hx
    rw [List.length_append, List.length_singleton]
    rcases List.mem_append.mp hx with hx | hx
    · have := hb x hx
      exact ⟨this.1, by omega⟩
    · rw [List.mem_singleton.mp hx]
      constructor
      · positivity
      · simp

/-- C3: for every welded mesh produced by a successful load there is a
final table (of some length `n`): the flat position, normal and
texcoord arrays hold `3n`, `3n` and `2n` values, and every value of the
output index array lies in `[0, n)`. -/
theorem c3_indices_in_range (input : JoeInput) (mesh : WeldedMesh)
    (h : loadFromHandle input = .ok mesh) :
    ∃ (fr0 : JoeFrame) (vm : List VertEntry),
      weldFaces input.num_faces fr0 = some (vm, mesh.faces) ∧
      mesh.vertices.length = 3 * vm.length ∧
      mesh.normals.length = 3 * vm.length ∧
      mesh.texcoords.length = 2 * vm.length ∧
      ∀ x ∈ mesh.faces, 0 ≤ x ∧ x.toNat < vm.length := by
  obtain ⟨frames0, frames, fr0, vm, vfaces, ps, hf0, hfix, hhead, hweld, hps, hmesh⟩ :=
    readData_inversion (loadFromHandle_ok h)
  obtain ⟨hpslen, hshape⟩ := gatherParts_some hps
  have hfaces : mesh.faces = vfaces := by rw [hmesh]
  have hbound : outBound (vm, vfaces) := by
    unfold weldFaces at hweld
    split at hweld
    · exact absurd hweld (by simp)
    · exact weldRun_inv (P := outBound) _ _ _
        (fun s c s' _ hc hP => outBound_preserved hc hP) hweld
        (fun x hx => absurd hx (List.not_mem_nil x))
  refine ⟨fr0, vm, ?_, ?_, ?_, ?_, ?_⟩
  · rw [hfaces]
    exact hweld
  · rw [hmesh]
    show (flatten1 ps).length = 3 * vm.length
    rw [flatten1_length ps (fun p hp => (hshape p hp).1), hpslen]
  · rw [hmesh]
    show (flatten2 ps).length = 3 * vm.length
    rw [flatten2_length ps (fun p hp => (hshape p hp).2.1), hpslen]
  · rw [hmesh]
    show (flatten3 ps).length = 2 * vm.length
    rw [flatten3_length ps (fun p hp => (hshape p hp).2.2), hpslen]
  · rw [hfaces]
    exact hbound

def inW : JoeInput := ⟨123, 3, 1, 1, [frW]⟩

def meshW : WeldedMesh :=
  ⟨[0, 1, 2],
   [0, 0, 0, 1, 0, 0, 0, 1, 0],
   [0, 0, 1, 0, 0, 1, 0, 0, 1],
   1,
   [0, 0, 1, 0, 0, 1]⟩

theorem c3_witness :
    (loadFromHandle inW = .ok meshW) ∧
    (∃ (fr0 : JoeFrame) (vm : List VertEntry),
      weldFaces inW.num_faces fr0 = some (vm, meshW.faces) ∧
      meshW.vertices.length = 3 * vm.length ∧
      meshW.normals.length = 3 * vm.length ∧
      meshW.texcoords.length = 2 * vm.length ∧
      ∀ x ∈ meshW.faces, 0 ≤ x ∧ x.toNat < vm.length) :=
  ⟨by with_unfolding_all rfl,
    c3_indices_in_range inW meshW (by with_unfolding_all rfl)⟩

/-! ### Claim C9: texcoord gather tolerance -/

theorem intGet_natCast {α : Type} (l : List α) (i : Nat) (h : i < l.length) :
    intGet l ((i : Nat) : Int) = some (l.get ⟨i, h⟩) := by
  rw [intGet_pos (by positivity) (by simpa using h)]
  exact congrArg some (congrArg l.get (Fin.ext (by simp)))

/-- The texcoord fetch of one slot: succeeds for every nonnegative
texcoord index, gathering from the source exactly when the index is
below `num_texcoords` and defaulting to `(0, 0)` otherwise. -/
theorem gatherTex_spec (fr : JoeFrame) (e : VertEntry)
    (h0 : 0 ≤ e.tex_index)
    (hcov : fr.num_texcoords.toNat ≤ fr.texcoords.length) :
    ∃ t, gatherTex fr e = some t ∧
      (if e.tex_index < fr.num_texcoords
        then intGet fr.texcoords e.tex_index = some t
        else t = ((0 : ℚ), (0 : ℚ))) := by
  unfold gatherTex
  by_cases hc : e.tex_index < fr.num_texcoords
  · have hlt : e.tex_index.toNat < fr.texcoords.length := by omega
    rw [if_pos hc]
    refine ⟨_, intGet_pos h0 hlt, ?_⟩
    rw [if_pos hc]
    exact intGet_pos h0 hlt
  · rw [if_neg hc]
    exact ⟨_, rfl, by rw [if_neg hc]⟩

theorem gatherEntry_tex {fr : JoeFrame} {e : VertEntry}
    {p : List ℚ × List ℚ × List ℚ} (h : gatherEntry fr e = some p)
    (hpop : 0 ≤ e.original_index) :
    ∃ t, gatherTex fr e = some t ∧ p.2.2 = [t.1, t.2] := by
  unfold gatherEntry at h
  rw [if_pos hpop] at h
  obtain ⟨v, hv, h2⟩ := Option.bind_eq_some.mp h
  obtain ⟨n, hn, h3⟩ := Option.bind_eq_some.mp h2
  obtain ⟨t, ht, h4⟩ := Option.bind_eq_some.mp h3
  exact ⟨t, ht, by rw [← Option.some_inj.mp h4]⟩

theorem gatherEntry_total {fr : JoeFrame} {e : VertEntry}
    (hcov : fr.num_texcoords.toNat ≤ fr.texcoords.length)
    (hok : 0 ≤ e.original_index →
      e.original_index.toNat < fr.verts.length ∧
      0 ≤ e.norm_index ∧ e.norm_index.toNat < fr.normals.length ∧
      0 ≤ e.tex_index) :
    ∃ p, gatherEntry fr e = some p := by
  unfold gatherEntry
  by_cases hpop : 0 ≤ e.original_index
  · obtain ⟨hvlt, hn0, hnlt, ht0⟩ := hok hpop
    rw [if_pos hpop, intGet_pos hpop hvlt, Option.some_bind,
      intGet_pos hn0 hnlt, Option.some_bind]
    obtain ⟨t, ht, _⟩ := gatherTex_spec fr e ht0 hcov
    rw [ht, Option.some_bind]
    exact ⟨_, rfl⟩
  · rw [if_neg hpop]
    exact ⟨_, rfl⟩

theorem gatherParts_total {fr : JoeFrame}
    (hcov : fr.num_texcoords.toNat ≤ fr.texcoords.length) :
    ∀ (vm : List VertEntry),
      (∀ e ∈ vm, 0 ≤ e.original_index →
        e.original_index.toNat < fr.verts.length ∧
        0 ≤ e.norm_index ∧ e.norm_index.toNat < fr.normals.length ∧
        0 ≤ e.tex_index) →
      ∃ ps, gatherParts fr vm = some ps := by
  intro vm
  induction vm with
  | nil => exact fun _ => ⟨[], rfl⟩
  | cons e rest ih =>
    intro hok
    obtain ⟨p, hp⟩ := gatherEntry_total hcov (hok e (List.mem_cons_self e rest))
    obtain ⟨ps, hps⟩ := ih (fun x hx => hok x (List.mem_cons_of_mem e hx))
    refine ⟨p :: ps, ?_⟩
    show (gatherEntry fr e).bind
      (fun q => (gatherParts fr rest).bind (fun pr => some (q :: pr))) = some (p :: ps)
    rw [hp, Option.some_bind, hps, Option.some_bind]

theorem gatherParts_get {fr : JoeFrame} :
    ∀ {vm : List VertEntry} {ps : List (List ℚ × List ℚ × List ℚ)},
      gatherParts fr vm = some ps →
      ∀ (i : Nat) (hv : i < vm.length) (hp : i < ps.length),
        gatherEntry fr (vm.get ⟨i, hv⟩) = some (ps.get ⟨i, hp⟩) := by
  intro vm
  induction vm with
  | nil =>
    intro ps h i hv
    exact absurd hv (by simp)
  | cons e rest ih =>
    intro ps h i hv hp
    have h2 : (gatherEntry fr e).bind
        (fun q => (gatherParts fr rest).bind (fun pr => some (q :: pr))) = some ps := h
    obtain ⟨q, hq, h3⟩ := Option.bind_eq_some.mp h2
    obtain ⟨pr, hpr, h4⟩ := Option.bind_eq_some.mp h3
    have hqp : q :: pr = ps := Option.some_inj.mp h4
    subst hqp
    cases i with
    | zero => exact hq
    | succ k =>
      have hk : k < rest.length := by simpa using hv
      have hk2 : k < pr.length := by simpa using hp
      exact ih hpr k hk hk2

/-- C9: given a table whose populated slots carry in-range position and
normal indices and nonnegative texcoord indices (which the preceding
welder pass guarantees), the gather phase always succeeds — an
over-range texcoord index never aborts the load — and each populated
slot has as its texcoord row the source pair exactly when its index is below
`num_texcoords`, and `(0, 0)` otherwise. -/
theorem c9_texcoord_tolerance (fr : JoeFrame) (vm : List VertEntry)
    (hcov : fr.num_texcoords.toNat ≤ fr.texcoords.length)
    (hok : ∀ e ∈ vm, 0 ≤ e.original_index →
      e.original_index.toNat < fr.verts.length ∧
      0 ≤ e.norm_index ∧ e.norm_index.toNat < fr.normals.length ∧
      0 ≤ e.tex_index) :
    ∃ ps, gatherParts fr vm = some ps ∧ (∃ r, gather fr vm = some r) ∧
      ∀ (i : Nat) (hv : i < vm.length) (hp : i < ps.length),
        0 ≤ (vm.get ⟨i, hv⟩).original_index →
        ∃ t, (ps.get ⟨i, hp⟩).2.2 = [t.1, t.2] ∧
          (if (vm.get ⟨i, hv⟩).tex_index < fr.num_texcoords
            then intGet fr.texcoords ((vm.get ⟨i, hv⟩).tex_index) = some t
            else t = ((0 : ℚ), (0 : ℚ))) := by
  obtain ⟨ps, hps⟩ := gatherParts_total hcov vm hok
  refine ⟨ps, hps, ?_, ?_⟩
  · refine ⟨(flatten1 ps, flatten2 ps, flatten3 ps), ?_⟩
    show (gatherParts fr vm).bind
      (fun qs => some (flatten1 qs, flatten2 qs, flatten3 qs)) = some _
    rw [hps, Option.some_bind]
  · intro i hv hp hpop
    have hent := gatherParts_get hps i hv hp
    obtain ⟨t, ht, hrow⟩ := gatherEntry_tex hent hpop
    have ht0 : 0 ≤ (vm.get ⟨i, hv⟩).tex_index :=
      (hok _ (List.get_mem vm i hv) hpop).2.2.2
    obtain ⟨t2, ht2, hchar⟩ := gatherTex_spec fr (vm.get ⟨i, hv⟩) ht0 hcov
    rw [ht] at ht2
    rw [← Option.some_inj.mp ht2] at hchar
    exact ⟨t, hrow, hchar⟩

/-- A frame with a single texcoord and a table slot whose texcoord
index 99 is far beyond it. -/
def fr9 : JoeFrame :=
  ⟨1, 1, 1,
   [⟨(0, 0, 0), (0, 0, 0), (0, 0, 0)⟩],
   [((0 : ℚ), 0, 0)],
   [((0 : ℚ), 0, 1)],
   [((5 : ℚ), 7)]⟩

def vm9 : List VertEntry := [⟨0, 0, 0⟩, ⟨0, 0, 99⟩]

theorem c9_witness :
    (fr9.num_texcoords.toNat ≤ fr9.texcoords.length ∧
      ∀ e ∈ vm9, 0 ≤ e.original_index →
        e.original_index.toNat < fr9.verts.length ∧
        0 ≤ e.norm_index ∧ e.norm_index.toNat < fr9.normals.length ∧
        0 ≤ e.tex_index) ∧
    (∃ ps, gatherParts fr9 vm9 = some ps ∧ (∃ r, gather fr9 vm9 = some r) ∧
      ∀ (i : Nat) (hv : i < vm9.length) (hp : i < ps.length),
        0 ≤ (vm9.get ⟨i, hv⟩).original_index →
        ∃ t, (ps.get ⟨i, hp⟩).2.2 = [t.1, t.2] ∧
          (if (vm9.get ⟨i, hv⟩).tex_index < fr9.num_texcoords
            then intGet fr9.texcoords ((vm9.get ⟨i, hv⟩).tex_index) = some t
            else t = ((0 : ℚ), (0 : ℚ)))) :=
  ⟨⟨by decide, by decide⟩,
    c9_texcoord_tolerance fr9 vm9 (by decide) (by decide)⟩

/-! ### Totality of the heuristic pass on well-formed frames -/

theorem map_scaleFrame_id : ∀ (frames : List JoeFrame),
    frames.map scaleFrame = frames := by
  intro frames
  induction frames with
  | nil => rfl
  | cons fr rest ih => simp [scaleFrame_eq, ih]

theorem getVert_some {fr : JoeFrame} {i : Int} (h0 : 0 ≤ i)
    (hlt : i < fr.num_verts) (hlen : fr.num_verts.toNat ≤ fr.verts.length) :
    ∃ v, getVert fr i = some v := by
  unfold getVert
  rw [if_pos hlt]
  exact ⟨_, intGet_pos h0 (by omega)⟩

theorem getNorm_some {fr : JoeFrame} {i : Int} (h0 : 0 ≤ i)
    (hlt : i < fr.num_normals) (hlen : fr.num_normals.toNat ≤ fr.normals.length) :
    ∃ v, getNorm fr i = some v := by
  unfold getNorm
  rw [if_pos hlt]
  exact ⟨_, intGet_pos h0 (by omega)⟩

theorem faceVectors_total {fr : JoeFrame} {f : JoeFace}
    (hvl : fr.num_verts.toNat ≤ fr.verts.length)
    (hnl : fr.num_normals.toNat ≤ fr.normals.length)
    (hc : ∀ c ∈ faceCorners f,
      0 ≤ c.vi ∧ c.vi < fr.num_verts ∧ 0 ≤ c.ni ∧ c.ni < fr.num_normals) :
    ∃ p, faceVectors fr f = some p := by
  obtain ⟨hv00, hv01, hn00, hn01⟩ := hc _ (show _ ∈ faceCorners f by
    unfold faceCorners; exact List.mem_cons_self _ _)
  obtain ⟨hv10, hv11, hn10, hn11⟩ := hc _ (show _ ∈ faceCorners f by
    unfold faceCorners
    exact List.mem_cons_of_mem _ (List.mem_cons_self _ _))
  obtain ⟨hv20, hv21, hn20, hn21⟩ := hc _ (show _ ∈ faceCorners f by
    unfold faceCorners
    exact List.mem_cons_of_mem _ (List.mem_cons_of_mem _ (List.mem_cons_self _ _)))
  obtain ⟨v0, hv0⟩ := getVert_some hv00 hv01 hvl
  obtain ⟨v1, hv1⟩ := getVert_some hv10 hv11 hvl
  obtain ⟨v2, hv2⟩ := getVert_some hv20 hv21 hvl
  obtain ⟨n0, hn0⟩ := getNorm_some hn00 hn01 hnl
  obtain ⟨n1, hn1⟩ := getNorm_some hn10 hn11 hnl
  obtain ⟨n2, hn2⟩ := getNorm_some hn20 hn21 hnl
  unfold faceVectors
  rw [hv0, hv1, hv2, hn0, hn1, hn2]
  simp only [Option.bind_eq_bind', Option.some_bind]
  exact ⟨_, rfl⟩

theorem faceVote_total {fr : JoeFrame} {f : JoeFace}
    (hvl : fr.num_verts.toNat ≤ fr.verts.length)
    (hnl : fr.num_normals.toNat ≤ fr.normals.length)
    (hc : ∀ c ∈ faceCorners f,
      0 ≤ c.vi ∧ c.vi < fr.num_verts ∧ 0 ≤ c.ni ∧ c.ni < fr.num_normals) :
    ∃ b, faceVote fr f = some b := by
  obtain ⟨p, hp⟩ := faceVectors_total hvl hnl hc
  unfold faceVote
  rw [hp]
  simp only [Option.bind_eq_bind', Option.some_bind]
  exact ⟨_, rfl⟩

theorem voteLoop_total {fr : JoeFrame} :
    ∀ (l : List Nat), (∀ i ∈ l, ∃ b, voteAt fr i = some b) →
      ∀ acc, ∃ c, voteLoop fr l acc = some c := by
  intro l
  induction l with
  | nil => exact fun _ acc => ⟨acc, rfl⟩
  | cons i rest ih =>
    intro h acc
    obtain ⟨b, hb⟩ := h i (List.mem_cons_self i rest)
    obtain ⟨c, hc⟩ := ih (fun j hj => h j (List.mem_cons_of_mem i hj))
      (if b then acc + 1 else acc)
    refine ⟨c, ?_⟩
    show (voteAt fr i).bind
      (fun v => voteLoop fr rest (if v then acc + 1 else acc)) = some c
    rw [hb, Option.some_bind]
    exact hc

/-- Corner range conditions for the heuristic, phrased per face. -/
def faceRangeOk (fr : JoeFrame) (f : JoeFace) : Prop :=
  ∀ c ∈ faceCorners f,
    0 ≤ c.vi ∧ c.vi < fr.num_verts ∧ 0 ≤ c.ni ∧ c.ni < fr.num_normals

theorem frameVoteCount_total {nf : Int} {fr : JoeFrame}
    (hfl : nf.toNat ≤ fr.faces.length)
    (hvl : fr.num_verts.toNat ≤ fr.verts.length)
    (hnl : fr.num_normals.toNat ≤ fr.normals.length)
    (hc : ∀ f ∈ fr.faces, faceRangeOk fr f) :
    ∃ cnt, frameVoteCount nf fr = some cnt := by
  apply voteLoop_total
  intro i hi
  have hilt : i < fr.faces.length := by
    have := List.mem_range.mp hi
    omega
  obtain ⟨b, hb⟩ := faceVote_total hvl hnl
    (hc _ (List.get_mem fr.faces i hilt))
  refine ⟨b, ?_⟩
  unfold voteAt
  rw [intGet_natCast fr.faces i hilt, Option.some_bind]
  exact hb

theorem swapLoop_total {nf : Int} :
    ∀ (l : List JoeFrame), (∀ fr ∈ l, ∃ c, frameVoteCount nf fr = some c) →
      ∀ acc, ∃ b, swapLoop nf l acc = some b := by
  intro l
  induction l with
  | nil => exact fun _ acc => ⟨acc, rfl⟩
  | cons fr rest ih =>
    intro h acc
    obtain ⟨c, hc⟩ := h fr (List.mem_cons_self fr rest)
    obtain ⟨b, hb⟩ := ih (fun g hg => h g (List.mem_cons_of_mem fr hg))
      (acc || decide (nf.tdiv 4 < (c : Int)))
    refine ⟨b, ?_⟩
    show (frameVoteCount nf fr).bind
      (fun k => swapLoop nf rest (acc || decide (nf.tdiv 4 < (k : Int)))) = some b
    rw [hc, Option.some_bind]
    exact hb

theorem needsNormalSwap_total {nf : Int} {frames : List JoeFrame}
    (h : ∀ fr ∈ frames, ∃ c, frameVoteCount nf fr = some c) :
    ∃ b, needsNormalSwap nf frames = some b :=
  swapLoop_total frames h false

/-- Lines 321-333 as an equation: once the heuristic has produced its
verdict, the correction is the map over all frames exactly when the
verdict is positive. -/
theorem applyNormalFix_eq {nf : Int} {frames : List JoeFrame} {b : Bool}
    (hb : needsNormalSwap nf frames = some b) :
    applyNormalFix nf frames =
      some (if b then frames.map fixFrame else frames) := by
  show (needsNormalSwap nf frames).bind
    (fun v => some (if v then frames.map fixFrame else frames)) = _
  rw [hb, Option.some_bind]

/-! ### Corner list facts -/

theorem cornersList_mem {fs : List JoeFace} {c : Corner}
    (hc : c ∈ cornersList fs) : ∃ f ∈ fs, c ∈ faceCorners f := by
  induction fs with
  | nil => exact absurd hc (by simp [cornersList])
  | cons f rest ih =>
    rcases List.mem_append.mp hc with h | h
    · exact ⟨f, List.mem_cons_self f rest, h⟩
    · obtain ⟨g, hg, hcg⟩ := ih h
      exact ⟨g, List.mem_cons_of_mem f hg, hcg⟩

theorem cornersList_length : ∀ (fs : List JoeFace),
    (cornersList fs).length = 3 * fs.length := by
  intro fs
  induction fs with
  | nil => rfl
  | cons f rest ih =>
    show (faceCorners f ++ cornersList rest).length = _
    rw [List.length_append, ih]
    simp [faceCorners]
    ring

theorem fixFrame_fields (fr : JoeFrame) :
    (fixFrame fr).num_verts = fr.num_verts ∧
    (fixFrame fr).num_texcoords = fr.num_texcoords ∧
    (fixFrame fr).num_normals = fr.num_normals ∧
    (fixFrame fr).faces = fr.faces ∧
    (fixFrame fr).verts = fr.verts ∧
    (fixFrame fr).normals.length = fr.normals.length ∧
    (fixFrame fr).texcoords = fr.texcoords :=
  ⟨rfl, rfl, rfl, rfl, rfl, guardMap_length _ _ _ _, rfl⟩

/-! ### Welder totality on well-formed frames -/

/-- The table covers the seed region and the fields of every populated entry
are safe for the later gather. -/
def weldSafe (fr : JoeFrame) (st : List VertEntry × List Int) : Prop :=
  fr.num_verts.toNat ≤ st.1.length ∧
  ∀ e ∈ st.1, 0 ≤ e.original_index →
    e.original_index.toNat < fr.verts.length ∧
    0 ≤ e.norm_index ∧ e.norm_index.toNat < fr.normals.length ∧
    0 ≤ e.tex_index

theorem weldCorner_safe {fr : JoeFrame} {st : List VertEntry × List Int}
    {c : Corner}
    (hcr : 0 ≤ c.vi ∧ c.vi < fr.num_verts ∧ 0 ≤ c.ni ∧
      c.ni.toNat < fr.normals.length ∧ 0 ≤ c.ti)
    (hvl : fr.num_verts.toNat ≤ fr.verts.length)
    (hs : weldSafe fr st) :
    ∃ st', weldCorner st c = some st' ∧ weldSafe fr st' := by
  obtain ⟨hv0, hv1, hn0, hn1, ht0⟩ := hcr
  obtain ⟨hcover, hents⟩ := hs
  have hlt : c.vi.toNat < st.1.length := by omega
  obtain ⟨st', hst'⟩ := weldCorner_total hv0 hlt ht0
  refine ⟨st', hst', ?_⟩
  obtain ⟨ve, hve, hbr⟩ := weldCorner_inv hst'
  rcases hbr with ⟨_, _, rfl⟩ | ⟨_, _, _, _, rfl⟩ | ⟨_, _, _, rfl⟩
  · refine ⟨by rw [List.length_set]; exact hcover, ?_⟩
    intro e he hpop
    rcases List.mem_or_eq_of_mem_set he with he | rfl
    · exact hents e he hpop
    · refine ⟨?_, hn0, hn1, ht0⟩
      show c.vi.toNat < fr.verts.length
      omega
  · exact ⟨hcover, hents⟩
  · refine ⟨by rw [List.length_append, List.length_singleton]; omega, ?_⟩
    intro e he hpop
    rcases List.mem_append.mp he with he | he
    · exact hents e he hpop
    · rw [List.mem_singleton.mp he]
      refine ⟨?_, hn0, hn1, ht0⟩
      show c.vi.toNat < fr.verts.length
      omega

theorem weldFaces_total {nf : Int} {fr : JoeFrame}
    (hnf0 : 0 ≤ nf) (hnv0 : 0 ≤ fr.num_verts)
    (hfl : fr.faces.length = nf.toNat)
    (hvl : fr.num_verts.toNat ≤ fr.verts.length)
    (hcr : ∀ c ∈ cornersList (fr.faces.take nf.toNat),
      0 ≤ c.vi ∧ c.vi < fr.num_verts ∧ 0 ≤ c.ni ∧
        c.ni.toNat < fr.normals.length ∧ 0 ≤ c.ti) :
    ∃ vmout, weldFaces nf fr = some vmout ∧
      weldSafe fr vmout ∧ vmout.2.length = 3 * nf.toNat := by
  unfold weldFaces
  rw [if_neg (by push_neg; exact ⟨by omega, by omega, by omega⟩)]
  have hinit : weldSafe fr
      (List.replicate fr.num_verts.toNat VertEntry.empty, ([] : List Int)) := by
    refine ⟨by simp, ?_⟩
    intro e he hpop
    exfalso
    rw [List.eq_of_mem_replicate he] at hpop
    exact absurd hpop (by decide)
  obtain ⟨fin, hfin, hsafe⟩ := weldRun_total (P := weldSafe fr) _ _
    (fun s c hcm hP => weldCorner_safe (hcr c hcm) hvl hP) hinit
  have hlen := weldRun_out_length _ _ _ hfin
  refine ⟨fin, hfin, hsafe, ?_⟩
  rw [hlen, cornersList_length, List.length_take, hfl]
  simp

/-! ### Claim C1, amended part -/

/-- Everything the weld and gather passes need from the frame they
process. -/
def weldReady (nf : Int) (fr : JoeFrame) : Prop :=
  0 ≤ fr.num_verts ∧ fr.faces.length = nf.toNat ∧
  fr.num_verts.toNat ≤ fr.verts.length ∧
  fr.num_normals.toNat ≤ fr.normals.length ∧
  fr.num_texcoords.toNat ≤ fr.texcoords.length ∧
  ∀ f ∈ fr.faces, ∀ c ∈ faceCorners f,
    0 ≤ c.vi ∧ c.vi < fr.num_verts ∧ 0 ≤ c.ni ∧ c.ni < fr.num_normals ∧
    0 ≤ c.ti ∧ c.ti < fr.num_texcoords

theorem weldReady_fix {nf : Int} {fr : JoeFrame} (h : weldReady nf fr) :
    weldReady nf (fixFrame fr) := by
  obtain ⟨h1, h2, h3, h4, h5, h6⟩ := h
  refine ⟨h1, h2, h3, ?_, h5, h6⟩
  show fr.num_normals.toNat ≤
    (guardMap normalFixOne fr.num_normals 0 fr.normals).length
  rw [guardMap_length]
  exact h4

theorem weldReady_weld {nf : Int} {fr : JoeFrame} (h : weldReady nf fr)
    (hnf0 : 0 ≤ nf) :
    ∃ vmout, weldFaces nf fr = some vmout ∧
      weldSafe fr vmout ∧ vmout.2.length = 3 * nf.toNat := by
  obtain ⟨h1, h2, h3, h4, h5, h6⟩ := h
  refine weldFaces_total hnf0 h1 h2 h3 ?_
  intro c hc
  obtain ⟨f, hf, hcf⟩ := cornersList_mem hc
  obtain ⟨hc1, hc2, hc3, hc4, hc5, _⟩ := h6 f (List.mem_of_mem_take hf) c hcf
  exact ⟨hc1, hc2, hc3, by omega, hc5⟩

/-- C1, amended: on a well-formed input with version 3, at most 32000
faces and at least one frame, every stage of `ReadData` succeeds and
the welded index array handed to the mesh has length exactly
`3 * faceCount`. -/
theorem c1_amended (input : JoeInput) (hv : input.version = 3)
    (hf : input.num_faces ≤ 32000) (hwf : wellFormed input)
    (hfr : 1 ≤ input.num_frames) :
    ∃ mesh, loadFromHandle input = .ok mesh ∧
      mesh.faces.length = 3 * input.num_faces.toNat := by
  obtain ⟨hread, hidx⟩ := hwf
  obtain ⟨frames0, hf0⟩ := Option.isSome_iff_exists.mp hread
  obtain ⟨hnfr0, hftake, hflen, hfok⟩ := readFrames_some hf0
  have hscale : frames0.map scaleFrame = frames0 := map_scaleFrame_id frames0
  have hready : ∀ fr ∈ frames0, weldReady input.num_faces fr := by
    intro fr hmem
    obtain ⟨hnf0, hfl, hnv0, hvl, hnn0, hnl, hnt0, htl⟩ := hfok fr hmem
    exact ⟨hnv0, hfl, by omega, by omega, by omega,
      fun f hface c hc => hidx fr (hftake ▸ hmem) f hface c hc⟩
  cases frames0 with
  | nil => exact absurd hflen (by simp; omega)
  | cons f0 rest =>
  have hnf0 : 0 ≤ input.num_faces := (hfok f0 (List.mem_cons_self f0 rest)).1
  have hvotes : ∀ fr ∈ f0 :: rest,
      ∃ c, frameVoteCount input.num_faces fr = some c := by
    intro fr hmem
    obtain ⟨h1, h2, h3, h4, h5, h6⟩ := hready fr hmem
    exact frameVoteCount_total (by omega) h3 h4
      (fun f hface c hc =>
        ⟨(h6 f hface c hc).1, (h6 f hface c hc).2.1,
          (h6 f hface c hc).2.2.1, (h6 f hface c hc).2.2.2.1⟩)
  obtain ⟨b, hb⟩ := needsNormalSwap_total hvotes
  have hfix := applyNormalFix_eq hb
  have hready0 : weldReady input.num_faces f0 :=
    hready f0 (List.mem_cons_self f0 rest)
  have hready0b : weldReady input.num_faces (if b then fixFrame f0 else f0) := by
    cases b
    · exact hready0
    · exact weldReady_fix hready0
  have hhead : (if b then (f0 :: rest).map fixFrame else (f0 :: rest)).head? =
      some (if b then fixFrame f0 else f0) := by
    cases b
    · rfl
    · rfl
  obtain ⟨vmout, hweld, hsafe, houtlen⟩ := weldReady_weld hready0b hnf0
  have hcov : (if b then fixFrame f0 else f0).num_texcoords.toNat ≤
      (if b then fixFrame f0 else f0).texcoords.length := hready0b.2.2.2.2.1
  obtain ⟨ps, hps⟩ := gatherParts_total hcov vmout.1 hsafe.2
  have hgather : gather (if b then fixFrame f0 else f0) vmout.1 =
      some (flatten1 ps, flatten2 ps, flatten3 ps) := by
    show (gatherParts (if b then fixFrame f0 else f0) vmout.1).bind
      (fun qs => some (flatten1 qs, flatten2 qs, flatten3 qs)) = _
    rw [hps, Option.some_bind]
  have hchain : readData input =
      (readFrames input.num_faces input.num_frames input.frames).bind
      (fun fs => (applyNormalFix input.num_faces (fs.map scaleFrame)).bind
        (fun frames => frames.head?.bind (fun fr0 =>
          (weldFaces input.num_faces fr0).bind (fun p =>
            (gather fr0 p.1).bind (fun q =>
              some ⟨p.2, q.1, q.2.1, 1, q.2.2⟩))))) := rfl
  have hrd : readData input =
      some ⟨vmout.2, flatten1 ps, flatten2 ps, 1, flatten3 ps⟩ := by
    rw [hchain, hf0, Option.some_bind, hscale, hfix, Option.some_bind, hhead,
      Option.some_bind, hweld, Option.some_bind, hgather, Option.some_bind]
  refine ⟨⟨vmout.2, flatten1 ps, flatten2 ps, 1, flatten3 ps⟩, ?_, houtlen⟩
  unfold loadFromHandle
  rw [if_neg (by simp [hv, JOE_VERSION]),
    if_neg (by simp [JOE_MAX_FACES]; omega), hrd]

theorem c1_witness :
    (inW.version = 3 ∧ inW.num_faces ≤ 32000 ∧ wellFormed inW ∧
      1 ≤ inW.num_frames) ∧
    (∃ mesh, loadFromHandle inW = .ok mesh ∧
      mesh.faces.length = 3 * inW.num_faces.toNat) :=
  ⟨⟨rfl, by decide, by decide, by decide⟩,
    c1_amended inW rfl (by decide) (by decide) (by decide)⟩

/-! ### Claim C5: the normal correction -/

/-- C5: once the heuristic's verdict `b` is computed, a negative
verdict leaves every frame untouched, and a positive verdict rewrites
exactly the normals: every frame keeps its faces, vertex positions,
texcoords and counts, and each normal `(x, y, z)` becomes `(x, -z, y)`
(Y and Z swapped, then the new Y negated), applied once per normal. -/
theorem c5_normal_correction (nf : Int) (frames frames' : List JoeFrame)
    (b : Bool) (hb : needsNormalSwap nf frames = some b)
    (hfix : applyNormalFix nf frames = some frames')
    (hlen : ∀ fr ∈ frames, fr.normals.length = fr.num_normals.toNat) :
    (b = false → frames' = frames) ∧
    (b = true → frames'.length = frames.length ∧
      ∀ (i : Nat) (hi : i < frames.length) (hi' : i < frames'.length),
        (frames'.get ⟨i, hi'⟩).faces = (frames.get ⟨i, hi⟩).faces ∧
        (frames'.get ⟨i, hi'⟩).verts = (frames.get ⟨i, hi⟩).verts ∧
        (frames'.get ⟨i, hi'⟩).texcoords = (frames.get ⟨i, hi⟩).texcoords ∧
        (frames'.get ⟨i, hi'⟩).num_verts = (frames.get ⟨i, hi⟩).num_verts ∧
        (frames'.get ⟨i, hi'⟩).num_texcoords =
          (frames.get ⟨i, hi⟩).num_texcoords ∧
        (frames'.get ⟨i, hi'⟩).num_normals = (frames.get ⟨i, hi⟩).num_normals ∧
        (frames'.get ⟨i, hi'⟩).normals.length =
          (frames.get ⟨i, hi⟩).normals.length ∧
        ∀ (j : Nat) (hj : j < (frames.get ⟨i, hi⟩).normals.length)
          (hj' : j < (frames'.get ⟨i, hi'⟩).normals.length),
          (frames'.get ⟨i, hi'⟩).normals.get ⟨j, hj'⟩ =
            (((frames.get ⟨i, hi⟩).normals.get ⟨j, hj⟩).1,
             -((frames.get ⟨i, hi⟩).normals.get ⟨j, hj⟩).2.2,
             ((frames.get ⟨i, hi⟩).normals.get ⟨j, hj⟩).2.1)) := by
  have heq := applyNormalFix_eq hb
  rw [hfix] at heq
  have hval : frames' = if b then frames.map fixFrame else frames :=
    Option.some_inj.mp heq
  constructor
  · intro hbf
    rw [hval, hbf, if_neg (by simp)]
  · intro hbt
    subst hbt
    rw [if_pos rfl] at hval
    subst hval
    refine ⟨by simp, ?_⟩
    intro i hi hi'
    have hmapget : (frames.map fixFrame).get ⟨i, hi'⟩ =
        fixFrame (frames.get ⟨i, hi⟩) := by
      rw [List.get_eq_getElem, List.get_eq_getElem, List.getElem_map]
    rw [hmapget]
    refine ⟨rfl, rfl, rfl, rfl, rfl, rfl, guardMap_length _ _ _ _, ?_⟩
    intro j hj hj'
    have hj2 : j < (guardMap normalFixOne (frames.get ⟨i, hi⟩).num_normals 0
        (frames.get ⟨i, hi⟩).normals).length := by
      rw [guardMap_length]; exact hj
    show (guardMap normalFixOne (frames.get ⟨i, hi⟩).num_normals 0
        (frames.get ⟨i, hi⟩).normals).get ⟨j, hj2⟩ = _
    rw [guardMap_get _ _ _ _ _ hj]
    rw [if_pos]
    · rfl
    · have := hlen _ (List.get_mem frames i hi)
      omega

/-- A frame that triggers the heuristic: face normal `(0,0,1)` against
vertex normals `(0,1,0)` (orthogonal, so the vote fires). -/
def frC5 : JoeFrame :=
  ⟨3, 3, 3,
   [⟨(0, 1, 2), (0, 1, 2), (0, 1, 2)⟩],
   [((0 : ℚ), 0, 0), ((0 : ℚ), 1, 0), ((1 : ℚ), 0, 0)],
   [((0 : ℚ), 1, 0), ((0 : ℚ), 1, 0), ((0 : ℚ), 1, 0)],
   [((0 : ℚ), 0), ((1 : ℚ), 0), ((0 : ℚ), 1)]⟩

def frC5fixed : JoeFrame :=
  ⟨3, 3, 3,
   [⟨(0, 1, 2), (0, 1, 2), (0, 1, 2)⟩],
   [((0 : ℚ), 0, 0), ((0 : ℚ), 1, 0), ((1 : ℚ), 0, 0)],
   [((0 : ℚ), 0, 1), ((0 : ℚ), 0, 1), ((0 : ℚ), 0, 1)],
   [((0 : ℚ), 0), ((1 : ℚ), 0), ((0 : ℚ), 1)]⟩

theorem c5_witness :
    (needsNormalSwap 1 [frC5] = some true ∧
      applyNormalFix 1 [frC5] = some [frC5fixed] ∧
      ∀ fr ∈ [frC5], fr.normals.length = fr.num_normals.toNat) ∧
    ((true = false → [frC5fixed] = [frC5]) ∧
      (true = true → [frC5fixed].length = [frC5].length ∧
        ∀ (i : Nat) (hi : i < [frC5].length) (hi' : i < [frC5fixed].length),
          ([frC5fixed].get ⟨i, hi'⟩).faces = ([frC5].get ⟨i, hi⟩).faces ∧
          ([frC5fixed].get ⟨i, hi'⟩).verts = ([frC5].get ⟨i, hi⟩).verts ∧
          ([frC5fixed].get ⟨i, hi'⟩).texcoords =
            ([frC5].get ⟨i, hi⟩).texcoords ∧
          ([frC5fixed].get ⟨i, hi'⟩).num_verts =
            ([frC5].get ⟨i, hi⟩).num_verts ∧
          ([frC5fixed].get ⟨i, hi'⟩).num_texcoords =
            ([frC5].get ⟨i, hi⟩).num_texcoords ∧
          ([frC5fixed].get ⟨i, hi'⟩).num_normals =
            ([frC5].get ⟨i, hi⟩).num_normals ∧
          ([frC5fixed].get ⟨i, hi'⟩).normals.length =
            ([frC5].get ⟨i, hi⟩).normals.length ∧
          ∀ (j : Nat) (hj : j < ([frC5].get ⟨i, hi⟩).normals.length)
            (hj' : j < ([frC5fixed].get ⟨i, hi'⟩).normals.length),
            ([frC5fixed].get ⟨i, hi'⟩).normals.get ⟨j, hj'⟩ =
              ((([frC5].get ⟨i, hi⟩).normals.get ⟨j, hj⟩).1,
               -(([frC5].get ⟨i, hi⟩).normals.get ⟨j, hj⟩).2.2,
               (([frC5].get ⟨i, hi⟩).normals.get ⟨j, hj⟩).2.1))) :=
  ⟨⟨by with_unfolding_all rfl, by with_unfolding_all rfl, by decide⟩,
    c5_normal_correction 1 [frC5] [frC5fixed] true
      (by with_unfolding_all rfl) (by with_unfolding_all rfl) (by decide)⟩

/-! ### Claim C4: the defect heuristic's vote, over the reals -/

/-- Magnitude (`Vec3::Magnitude()`) over the reals: the square root of the squared
magnitude. -/
noncomputable def magR (v : Vec3) : ℝ := Real.sqrt ((magSq v : ℚ) : ℝ)

/-- The flip-vote condition of claim C4, read literally over ℝ: both
magnitudes not below 0.0001 (weak `≤`) and the dot product of the two
normalised vectors strictly inside `(-1/2, 1/2)`. -/
def specVoteGe (fr : JoeFrame) (f : JoeFace) : Prop :=
  ∃ p : Vec3 × Vec3, faceVectors fr f = some p ∧
    (1 / 10000 : ℝ) ≤ magR p.2 ∧ (1 / 10000 : ℝ) ≤ magR p.1 ∧
    ((vdot p.1 p.2 : ℚ) : ℝ) / (magR p.1 * magR p.2) ∈
      Set.Ioo (-(1 / 2) : ℝ) (1 / 2)

/-- The flip-vote condition of the source over ℝ: both magnitudes strictly
above 0.0001 and the normalised dot product strictly inside
`(-1/2, 1/2)`. -/
def specVoteGt (fr : JoeFrame) (f : JoeFace) : Prop :=
  ∃ p : Vec3 × Vec3, faceVectors fr f = some p ∧
    (1 / 10000 : ℝ) < magR p.2 ∧ (1 / 10000 : ℝ) < magR p.1 ∧
    ((vdot p.1 p.2 : ℚ) : ℝ) / (magR p.1 * magR p.2) ∈
      Set.Ioo (-(1 / 2) : ℝ) (1 / 2)

theorem magSq_nonneg (v : Vec3) : 0 ≤ magSq v := by
  have h1 := mul_self_nonneg v.1
  have h2 := mul_self_nonneg v.2.1
  have h3 := mul_self_nonneg v.2.2
  unfold magSq vdot
  linarith

/-- The square-root-free encoding of the magnitude test of the source is
exact: `Magnitude() > 0.0001` iff `magSq > (1/10000)^2`. -/
theorem magR_gt_iff (v : Vec3) :
    ((1 / 10000 : ℝ) < magR v) ↔ (1 / 10000 : ℚ) ^ 2 < magSq v := by
  unfold magR
  rw [Real.lt_sqrt (by norm_num)]
  rw [show ((1 : ℝ) / 10000) ^ 2 = (((1 / 10000 : ℚ) ^ 2 : ℚ) : ℝ) by
    push_cast
    ring]
  exact Rat.cast_lt

/-- The square-root-free encoding of the normalised-dot band is exact:
for positive squared magnitudes, the normalised dot product lies
strictly inside `(-1/2, 1/2)` iff `4 dot² < magSq · magSq`. -/
theorem band_iff {x y d : ℚ} (hx : 0 < x) (hy : 0 < y) :
    ((d : ℝ) / (Real.sqrt (x : ℝ) * Real.sqrt (y : ℝ)) ∈
      Set.Ioo (-(1 / 2) : ℝ) (1 / 2)) ↔ 4 * d ^ 2 < x * y := by
  have hxR : (0 : ℝ) < (x : ℝ) := by exact_mod_cast hx
  have hyR : (0 : ℝ) < (y : ℝ) := by exact_mod_cast hy
  have hm : 0 < Real.sqrt (x : ℝ) * Real.sqrt (y : ℝ) :=
    mul_pos (Real.sqrt_pos.mpr hxR) (Real.sqrt_pos.mpr hyR)
  have hm2 : (Real.sqrt (x : ℝ) * Real.sqrt (y : ℝ)) ^ 2 = (x : ℝ) * y := by
    rw [mul_pow, Real.sq_sqrt hxR.le, Real.sq_sqrt hyR.le]
  rw [Set.mem_Ioo]
  constructor
  · rintro ⟨h1, h2⟩
    have habs : |(d : ℝ) / (Real.sqrt (x : ℝ) * Real.sqrt (y : ℝ))| < 1 / 2 :=
      abs_lt.mpr ⟨h1, h2⟩
    rw [abs_div, abs_of_pos hm] at habs
    have hd : |(d : ℝ)| < 1 / 2 * (Real.sqrt (x : ℝ) * Real.sqrt (y : ℝ)) :=
      (div_lt_iff₀ hm).mp habs
    have hsq : |(d : ℝ)| ^ 2 <
        (1 / 2 * (Real.sqrt (x : ℝ) * Real.sqrt (y : ℝ))) ^ 2 :=
      pow_lt_pow_left₀ hd (abs_nonneg _) (by norm_num)
    rw [sq_abs, mul_pow, hm2] at hsq
    have hfin : 4 * (d : ℝ) ^ 2 < (x : ℝ) * y := by nlinarith
    exact_mod_cast hfin
  · intro h
    have hR : 4 * (d : ℝ) ^ 2 < (x : ℝ) * y := by exact_mod_cast h
    have hd : |(d : ℝ)| < 1 / 2 * (Real.sqrt (x : ℝ) * Real.sqrt (y : ℝ)) := by
      by_contra hcon
      push_neg at hcon
      have hsq := pow_le_pow_left₀ (by positivity) hcon 2
      rw [sq_abs, mul_pow, hm2] at hsq
      nlinarith
    have habs : |(d : ℝ)| / (Real.sqrt (x : ℝ) * Real.sqrt (y : ℝ)) < 1 / 2 :=
      (div_lt_iff₀ hm).mpr hd
    rw [← abs_of_pos hm, ← abs_div] at habs
    exact ⟨(abs_lt.mp habs).1, (abs_lt.mp habs).2⟩

/-- The vote value of one face is exactly the condition of the source, which over
the reals is the strict form of the condition of the claim. -/
theorem faceVote_char {fr : JoeFrame} {f : JoeFace} {b : Bool}
    (h : faceVote fr f = some b) : b = true ↔ specVoteGt fr f := by
  have h2 : (faceVectors fr f).bind (fun p => some (decide
      ((1 / 10000 : ℚ) ^ 2 < magSq p.2 ∧ (1 / 10000 : ℚ) ^ 2 < magSq p.1 ∧
        4 * vdot p.1 p.2 ^ 2 < magSq p.1 * magSq p.2))) = some b := h
  obtain ⟨p, hp, hb⟩ := Option.bind_eq_some.mp h2
  have hbv : b = decide ((1 / 10000 : ℚ) ^ 2 < magSq p.2 ∧
      (1 / 10000 : ℚ) ^ 2 < magSq p.1 ∧
      4 * vdot p.1 p.2 ^ 2 < magSq p.1 * magSq p.2) :=
    (Option.some_inj.mp hb).symm
  subst hbv
  rw [decide_eq_true_eq]
  constructor
  · rintro ⟨hq1, hq2, hq3⟩
    have hx : 0 < magSq p.1 := lt_of_le_of_lt (by positivity) hq2
    have hy : 0 < magSq p.2 := lt_of_le_of_lt (by positivity) hq1
    exact ⟨p, hp, (magR_gt_iff p.2).mpr hq1, (magR_gt_iff p.1).mpr hq2,
      (band_iff hx hy).mpr hq3⟩
  · rintro ⟨p', hp', h1, h2', h3⟩
    have hpp : p' = p := Option.some_inj.mp (hp'.symm.trans hp)
    subst hpp
    have hq1 := (magR_gt_iff p'.2).mp h1
    have hq2 := (magR_gt_iff p'.1).mp h2'
    have hx : 0 < magSq p'.1 := lt_of_le_of_lt (by positivity) hq2
    have hy : 0 < magSq p'.2 := lt_of_le_of_lt (by positivity) hq1
    exact ⟨hq1, hq2, (band_iff hx hy).mp h3⟩

/-- The inner loop counts exactly the faces whose vote is positive. -/
theorem voteLoop_count {fr : JoeFrame} :
    ∀ (l : List Nat) (acc c : Nat), voteLoop fr l acc = some c →
      (∀ i ∈ l, ∃ v, voteAt fr i = some v) ∧
      c = acc + l.countP (fun i => voteAt fr i == some true) := by
  intro l
  induction l with
  | nil =>
    intro acc c h
    have hac : acc = c := Option.some_inj.mp h
    subst hac
    exact ⟨by simp, by simp⟩
  | cons i rest ih =>
    intro acc c h
    have h2 : (voteAt fr i).bind
        (fun v => voteLoop fr rest (if v then acc + 1 else acc)) = some c := h
    obtain ⟨v, hv, hrest⟩ := Option.bind_eq_some.mp h2
    obtain ⟨hall, hcount⟩ := ih _ _ hrest
    refine ⟨?_, ?_⟩
    · intro j hj
      rcases List.mem_cons.mp hj with rfl | hj
      · exact ⟨v, hv⟩
      · exact hall j hj
    · rw [List.countP_cons, hcount, hv]
      cases v
      · simp
      · simp
        omega

theorem swapLoop_char {nf : Int} :
    ∀ (l : List JoeFrame) (acc b : Bool), swapLoop nf l acc = some b →
      (∀ fr ∈ l, ∃ c, frameVoteCount nf fr = some c) ∧
      (b = true ↔ acc = true ∨ ∃ fr ∈ l, ∃ c,
        frameVoteCount nf fr = some c ∧ nf.tdiv 4 < (c : Int)) := by
  intro l
  induction l with
  | nil =>
    intro acc b h
    have hab : acc = b := Option.some_inj.mp h
    subst hab
    exact ⟨by simp, by simp⟩
  | cons fr rest ih =>
    intro acc b h
    have h2 : (frameVoteCount nf fr).bind (fun c =>
        swapLoop nf rest (acc || decide (nf.tdiv 4 < (c : Int)))) = some b := h
    obtain ⟨c, hc, hrest⟩ := Option.bind_eq_some.mp h2
    obtain ⟨hall, hiff⟩ := ih _ _ hrest
    refine ⟨?_, ?_⟩
    · intro g hg
      rcases List.mem_cons.mp hg with rfl | hg
      · exact ⟨c, hc⟩
      · exact hall g hg
    · rw [hiff, Bool.or_eq_true, decide_eq_true_eq]
      constructor
      · rintro ((hacc | hlt) | ⟨g, hg, cc, hcc, hl⟩)
        · exact Or.inl hacc
        · exact Or.inr ⟨fr, List.mem_cons_self fr rest, c, hc, hlt⟩
        · exact Or.inr ⟨g, List.mem_cons_of_mem fr hg, cc, hcc, hl⟩
      · rintro (hacc | ⟨g, hg, cc, hcc, hl⟩)
        · exact Or.inl (Or.inl hacc)
        · rcases List.mem_cons.mp hg with rfl | hg
          · have hcceq : cc = c := Option.some_inj.mp (hcc.symm.trans hc)
            subst hcceq
            exact Or.inl (Or.inr hl)
          · exact Or.inr ⟨g, hg, cc, hcc, hl⟩

theorem countP_toFinset (n : Nat) (p : Nat → Bool) :
    ∃ S : Finset Nat, S.card = (List.range n).countP p ∧
      ∀ i, i ∈ S ↔ i < n ∧ p i = true := by
  refine ⟨((List.range n).filter p).toFinset, ?_, ?_⟩
  · rw [List.toFinset_card_of_nodup ((List.nodup_range n).filter p),
      List.countP_eq_length_filter]
  · intro i
    rw [List.mem_toFinset, List.mem_filter, List.mem_range]

theorem card_le_countP {n : Nat} {p : Nat → Bool} {S : Finset Nat}
    (h : ∀ i ∈ S, i < n ∧ p i = true) :
    S.card ≤ (List.range n).countP p := by
  obtain ⟨T, hT, hmem⟩ := countP_toFinset n p
  rw [← hT]
  exact Finset.card_le_card (fun i hi => (hmem i).mpr (h i hi))

/-- C4, amended: `NeedsNormalSwap` flags the object iff some frame has
a set of more than `num_faces/4` (truncating division) face indices
that each cast a flip vote, where a face votes exactly when both the
geometric face normal `(v2-v0)×(v1-v0)` and the summed vertex normal
`n0+n1+n2` have magnitude *strictly above* 0.0001 and the dot product
of their normalisations lies strictly between -0.5 and 0.5. -/
theorem c4_amended (nf : Int) (frames : List JoeFrame) (b : Bool)
    (h : needsNormalSwap nf frames = some b) :
    b = true ↔ ∃ fr ∈ frames, ∃ S : Finset Nat,
      (∀ i ∈ S, i < nf.toNat ∧
        ∃ f, intGet fr.faces ((i : Nat) : Int) = some f ∧ specVoteGt fr f) ∧
      nf.tdiv 4 < (S.card : Int) := by
  obtain ⟨hall, hiff⟩ := swapLoop_char frames false b h
  rw [hiff]
  simp only [Bool.false_eq_true, false_or]
  constructor
  · rintro ⟨fr, hfr, c, hc, hlt⟩
    obtain ⟨hallv, hcount⟩ := voteLoop_count (List.range nf.toNat) 0 c hc
    obtain ⟨S, hScard, hSmem⟩ :=
      countP_toFinset nf.toNat (fun i => voteAt fr i == some true)
    refine ⟨fr, hfr, S, ?_, ?_⟩
    · intro i hi
      obtain ⟨hin, hp⟩ := (hSmem i).mp hi
      have hvt : voteAt fr i = some true := beq_iff_eq.mp hp
      have h3 : (intGet fr.faces ((i : Nat) : Int)).bind (faceVote fr) =
          some true := hvt
      obtain ⟨f, hfi, hfv⟩ := Option.bind_eq_some.mp h3
      exact ⟨hin, f, hfi, (faceVote_char hfv).mp rfl⟩
    · rw [hScard, ← Nat.zero_add ((List.range nf.toNat).countP _), ← hcount]
      exact hlt
  · rintro ⟨fr, hfr, S, hSmem, hScard⟩
    obtain ⟨c, hc⟩ := hall fr hfr
    obtain ⟨hallv, hcount⟩ := voteLoop_count (List.range nf.toNat) 0 c hc
    refine ⟨fr, hfr, c, hc, ?_⟩
    have hsub : S.card ≤ (List.range nf.toNat).countP
        (fun i => voteAt fr i == some true) := by
      apply card_le_countP
      intro i hi
      obtain ⟨hin, f, hfi, hgt⟩ := hSmem i hi
      refine ⟨hin, ?_⟩
      obtain ⟨v, hv⟩ := hallv i (List.mem_range.mpr hin)
      have h3 : (intGet fr.faces ((i : Nat) : Int)).bind (faceVote fr) =
          some v := hv
      rw [hfi, Option.some_bind] at h3
      have hvt : v = true := (faceVote_char h3).mpr hgt
      subst hvt
      rw [show voteAt fr i = some true from hv]
      rfl
    omega

/-- A frame whose geometric face normal has magnitude exactly 0.0001:
`tnorm = (v2-v0)×(v1-v0) = (1/10000, 0, 0)`, summed vertex normal
`(0, 3, 0)`, normalised dot product 0.  The weak reading of the
threshold (not below 0.0001) casts a flip vote here, the strict
comparison of the source does not. -/
def frB : JoeFrame :=
  ⟨3, 3, 3,
   [⟨(0, 1, 2), (0, 1, 2), (0, 1, 2)⟩],
   [((0 : ℚ), 0, 0), ((0 : ℚ), 0, 1 / 10000), ((0 : ℚ), 1, 0)],
   [((0 : ℚ), 1, 0), ((0 : ℚ), 1, 0), ((0 : ℚ), 1, 0)],
   [((0 : ℚ), 0), ((1 : ℚ), 0), ((0 : ℚ), 1)]⟩

/-- C4 fails as stated: at `frB` the heuristic reports `false`, yet
under the vote condition of the claim — magnitude *not below* 0.0001 — the
single face votes, and one vote exceeds `num_faces/4 = 0`. -/
theorem c4_counterexample :
    needsNormalSwap 1 [frB] = some false ∧
    ¬ ((false : Bool) = true ↔ ∃ fr ∈ [frB], ∃ S : Finset Nat,
      (∀ i ∈ S, i < (1 : Int).toNat ∧
        ∃ f, intGet fr.faces ((i : Nat) : Int) = some f ∧ specVoteGe fr f) ∧
      (1 : Int).tdiv 4 < (S.card : Int)) := by
  constructor
  · with_unfolding_all rfl
  · intro hiff
    have hmem : ∀ i ∈ ({0} : Finset Nat), i < (1 : Int).toNat ∧
        ∃ f, intGet frB.faces ((i : Nat) : Int) = some f ∧ specVoteGe frB f := by
      intro i hi
      rw [Finset.mem_singleton.mp hi]
      refine ⟨by decide, ⟨(0, 1, 2), (0, 1, 2), (0, 1, 2)⟩,
        by with_unfolding_all rfl, ?_⟩
      refine ⟨(((0 : ℚ), 3, 0), ((1 / 10000 : ℚ), 0, 0)),
        by with_unfolding_all rfl, ?_, ?_, ?_⟩
      · have hms : magSq ((1 / 10000 : ℚ), 0, 0) = 1 / 100000000 := by
          unfold magSq vdot
          norm_num
        unfold magR
        rw [hms]
        have hc : ((1 / 100000000 : ℚ) : ℝ) = ((1 : ℝ) / 10000) ^ 2 := by
          push_cast
          norm_num
        rw [hc, Real.sqrt_sq (by norm_num)]
      · have hms : magSq ((0 : ℚ), 3, 0) = 9 := by
          unfold magSq vdot
          norm_num
        unfold magR
        rw [hms]
        have hc : ((9 : ℚ) : ℝ) = (3 : ℝ) ^ 2 := by norm_num
        rw [hc, Real.sqrt_sq (by norm_num)]
        norm_num
      · have hd : vdot ((0 : ℚ), 3, 0) ((1 / 10000 : ℚ), 0, 0) = 0 := by
          unfold vdot
          norm_num
        rw [hd, Rat.cast_zero, zero_div, Set.mem_Ioo]
        norm_num
    have hfalse := hiff.mpr ⟨frB, List.mem_cons_self frB [], {0}, hmem, by decide⟩
    exact absurd hfalse (by decide)

theorem c4_witness :
    (needsNormalSwap 1 [frC5] = some true) ∧
    (true = true ↔ ∃ fr ∈ [frC5], ∃ S : Finset Nat,
      (∀ i ∈ S, i < (1 : Int).toNat ∧
        ∃ f, intGet fr.faces ((i : Nat) : Int) = some f ∧ specVoteGt fr f) ∧
      (1 : Int).tdiv 4 < (S.card : Int)) :=
  ⟨by with_unfolding_all rfl,
    c4_amended 1 [frC5] true (by with_unfolding_all rfl)⟩

end ModelJoe03
